import Mathlib

/-!
Verification of the NemoNetwork/iavl core (`db.go`, `nodepool.go`) against its
natural-language specification.

The mutation engine (`Tree.Set`, `Tree.Remove`, `Tree.SaveVersion`,
`Tree.mutateNode`, `Tree.NewNode`, `Tree.returnNode`, `Tree.deepHash`,
`Tree.buildCheckpoint`, `Tree.asyncCheckpoint`) and the node pool
(`nodePool.Get/Put/grow/resetNode`) are translated from the Go source.
Parts of the repository that are not present under the source tree (the
`Node` struct declaration, `balance`/rotations, `_hash`, `calcHeightAndSize`,
`setLeft`/`setRight`, the SQL/KV store backends) are modelled from the spec;
each such definition carries a doc comment starting `Modelled from the spec:`.

Go byte slices are `List Nat`; Go's `nil` slice / `nil` hash pointer is
`Option`-`none`.  Go panics and error returns are modelled with
`Except String`.  Machine integers (`int64`, `int8`, `uint32`) are modelled
as `Int`/`Nat`; none of the verified scenarios approach overflow, so no
wrap-around is modelled.
-/

namespace Iavl

/-- Byte strings (`[]byte` in Go). -/
abbrev Bytes := List Nat

/-- Lexicographic comparison of byte strings, as `bytes.Compare` in Go. -/
def bcmp : Bytes → Bytes → Ordering
  | [], [] => .eq
  | [], _ :: _ => .lt
  | _ :: _, [] => .gt
  | a :: as, b :: bs => if a < b then .lt else if b < a then .gt else bcmp as bs

/-- Strict "less than" on byte strings (`bytes.Compare(a,b) < 0`). -/
def kLT (a b : Bytes) : Prop := bcmp a b = .lt

instance (a b : Bytes) : Decidable (kLT a b) := by
  unfold kLT; infer_instance

/-- Go `bytes.HasPrefix(s, pre)`. -/
def startsWith : Bytes → Bytes → Bool
  | _, [] => true
  | [], _ :: _ => false
  | a :: as, b :: bs => a == b && startsWith as bs

/-- Node identity: 12-byte `(version, sequence)` pair (spec §3 NodeKey). -/
structure NodeKey where
  version : Int
  seqnum : Nat
deriving DecidableEq, Repr

/-- The all-zero sentinel node key. -/
def emptyNodeKey : NodeKey := ⟨0, 0⟩

/-- Modelled from the spec: the SHA-256 hash of the canonical node encoding
(spec §4.3; the Go `_hash`/codec source is not in the tree).  The hash is
modelled as the canonical encoding itself, i.e. as a value that determines
exactly the encoded fields: height/size/version/key plus either the leaf
value or the two child hashes.  SHA-256 is treated as injective, which makes
the constructors of this type a faithful model of the Merkle chain. -/
inductive HashVal : Type
  | leafH (version : Int) (key : Bytes) (value : Bytes)
  | branchH (version : Int) (height : Int) (size : Int) (key : Bytes)
      (l : HashVal) (r : HashVal)
deriving DecidableEq, Repr

/-- The scalar fields of a tree node.  The Go `Node` struct declaration is
not part of the source tree; the field list is reconstructed from every field
access in `db.go` and `nodepool.go` (`nodeKey`, `key`, `sortKey`, `value`,
`subtreeHeight`, `size`, `hash`, `dirty`, `leftNodeKey`, `rightNodeKey`,
`leftNode`, `rightNode`, `poolId`), matching the attribute list of spec §3. -/
structure NodeData where
  nodeKey : NodeKey
  key : Bytes
  sortKey : Bytes
  value : Option Bytes
  subtreeHeight : Int
  size : Int
  hash : Option HashVal
  dirty : Bool
  leftNodeKey : NodeKey
  rightNodeKey : NodeKey
  poolId : Nat
deriving DecidableEq, Repr

/-- An in-memory tree node: scalar data plus the transient child pointers
(`leftNode`/`rightNode`), which may be `none` (Go `nil`) when a child is not
resident. -/
inductive Node : Type
  | node (d : NodeData) (leftNode rightNode : Option Node)

/-- Scalar data of a node. -/
def Node.data : Node → NodeData
  | .node d _ _ => d

/-- Transient left child pointer. -/
def Node.leftNode : Node → Option Node
  | .node _ l _ => l

/-- Transient right child pointer. -/
def Node.rightNode : Node → Option Node
  | .node _ _ r => r

/-- Replace the scalar data, keeping the child pointers. -/
def Node.withData : Node → NodeData → Node
  | .node _ l r, d => .node d l r

def Node.nodeKey (n : Node) : NodeKey := n.data.nodeKey
def Node.key (n : Node) : Bytes := n.data.key
def Node.sortKey (n : Node) : Bytes := n.data.sortKey
def Node.value (n : Node) : Option Bytes := n.data.value
def Node.subtreeHeight (n : Node) : Int := n.data.subtreeHeight
def Node.size (n : Node) : Int := n.data.size
def Node.hash (n : Node) : Option HashVal := n.data.hash
def Node.dirty (n : Node) : Bool := n.data.dirty
def Node.poolId (n : Node) : Nat := n.data.poolId

/-- Modelled from the spec: leaf vs inner is tagged by `subtree_height == 0`
(spec §9 "Polymorphism"); `isLeaf` itself is not in the source tree. -/
def Node.isLeaf (n : Node) : Bool := n.subtreeHeight == 0

/-- Modelled from the spec: child resolution `node.left(tree)` (spec §4.5).
In the verified from-empty sessions every child of the working tree is
resident, so the store-miss path (absent from the source tree) is an error. -/
def Node.left (n : Node) : Except String Node :=
  match n.leftNode with
  | some l => .ok l
  | none => .error "left child not resident"

/-- Modelled from the spec: child resolution `node.right(tree)` (spec §4.5). -/
def Node.right (n : Node) : Except String Node :=
  match n.rightNode with
  | some r => .ok r
  | none => .error "right child not resident"

/-- Modelled from the spec: `setLeft` installs the child pointer and records
the child identity (spec §9: children are held by identity plus a transient
pointer). -/
def Node.setLeft : Node → Node → Node
  | .node d _ r, c => .node { d with leftNodeKey := c.data.nodeKey } (some c) r

/-- Modelled from the spec: `setRight`, mirror of `setLeft`. -/
def Node.setRight : Node → Node → Node
  | .node d l _, c => .node { d with rightNodeKey := c.data.nodeKey } l (some c)

/-- Modelled from the spec: the in-memory byte footprint of a node
(`sizeBytes` is not in the source tree).  Only its value at call time feeds
the `workingBytes` accounting; no claim constrains the exact constant. -/
def Node.sizeBytes (n : Node) : Nat :=
  48 + n.key.length + (match n.value with | some v => v.length | none => 0)

/-- Number of in-memory nodes of a subtree (following the transient child
pointers, like the Go test helper `treeCount`). -/
def nodeCount : Node → Nat
  | .node _ l r =>
    1 + (match l with | some x => nodeCount x | none => 0)
      + (match r with | some x => nodeCount x | none => 0)

/-- The keys of the leaves of a subtree, in tree order. -/
def nodeKeys : Node → List Bytes
  | .node d l r =>
    if d.subtreeHeight = 0 then [d.key]
    else (match l with | some x => nodeKeys x | none => [])
      ++ (match r with | some x => nodeKeys x | none => [])

/-- The logical value recorded for a leaf: the payload of its hash when the
leaf has been hashed (the in-memory `value` field is cleared after hashing),
otherwise the raw `value` field. -/
def leafPayload (d : NodeData) : Bytes :=
  match d.hash with
  | some (.leafH _ _ v) => v
  | _ => d.value.getD []

/-- The key→value association of the leaves of a subtree, in tree order. -/
def leafAssoc : Node → List (Bytes × Bytes)
  | .node d l r =>
    if d.subtreeHeight = 0 then [(d.key, leafPayload d)]
    else (match l with | some x => leafAssoc x | none => [])
      ++ (match r with | some x => leafAssoc x | none => [])

/-- First-match lookup in a key→value association list. -/
def lookupA : List (Bytes × Bytes) → Bytes → Option Bytes
  | [], _ => none
  | (k0, v0) :: rest, q => if q = k0 then some v0 else lookupA rest q

/-- An entry of the orphan log (`nodeDiff` in `db.go`; only the fields the
translated code writes are kept: `deleted`, `prevKey`, `prevHeight`). -/
structure NodeDiff where
  deleted : Bool
  prevKey : Bytes
  prevHeight : Int
deriving DecidableEq, Repr

/-- The mutation engine state (`Tree` in `db.go`).  The store handles
(`sql`, `kv`), metrics, cache, pool handle and debug graph emission are
external collaborators (spec §1/§6) and are not part of the state; the
store is modelled where the operations need it.  `sequenceCtr` is the Go
field `sequence`. -/
structure Tree where
  version : Int
  root : Option Node
  lastCheckpoint : Int
  orphans : List NodeDiff
  workingBytes : Nat
  workingSize : Int
  branches : List Node
  leaves : List Node
  sequenceCtr : Nat

/-- A freshly constructed tree (`NewTree` in `db.go`): no root, version 0. -/
def newTree : Tree :=
  { version := 0, root := none, lastCheckpoint := 0, orphans := []
    workingBytes := 0, workingSize := 0, branches := [], leaves := []
    sequenceCtr := 0 }

/-- `Tree.nextNodeKey`: bump the sequence counter, then stamp
`(version+1, sequence)`. -/
def Tree.nextNodeKey (t : Tree) : NodeKey × Tree :=
  (⟨t.version + 1, t.sequenceCtr + 1⟩, { t with sequenceCtr := t.sequenceCtr + 1 })

/-- `Tree.mutateNode`: copy-on-first-touch.  A node whose hash is already
`nil` has been mutated in this working set and is left alone; otherwise the
hash is cleared and a fresh node key assigned, and on the first clean→dirty
transition the working-set counters grow. -/
def Tree.mutateNode (t : Tree) (n : Node) : Node × Tree :=
  if n.hash = none then (n, t)
  else
    let (nk, t1) := t.nextNodeKey
    let n1 := n.withData { n.data with hash := none, nodeKey := nk }
    if n1.dirty then (n1, t1)
    else
      let n2 := n1.withData { n1.data with dirty := true }
      (n2, { t1 with workingBytes := t1.workingBytes + n2.sizeBytes
                     workingSize := t1.workingSize + 1 })

/-- `Tree.addOrphan`: nodes with a hash (persisted or hashed this session)
are recorded in the orphan log before being touched. -/
def Tree.addOrphan (t : Tree) (n : Node) : Tree :=
  if n.hash = none then t
  else { t with orphans := t.orphans ++ [⟨false, n.key, n.subtreeHeight⟩] }

/-- `Tree.NewNode`: allocate a leaf from the pool, stamp it, hash it eagerly
(`_hash(version+1)`), clear the value, mark dirty and grow the working set.
The pool slot bookkeeping is kept in the separate `nodePool` model; the Go
`version` argument is always `tree.version` at the call sites. -/
def Tree.NewNode (t : Tree) (key value : Bytes) (version : Int) : Node × Tree :=
  let (nk, t1) := t.nextNodeKey
  let d : NodeData :=
    { nodeKey := nk, key := key, sortKey := key, value := some value
      subtreeHeight := 0, size := 1, hash := none, dirty := false
      leftNodeKey := emptyNodeKey, rightNodeKey := emptyNodeKey, poolId := 0 }
  -- node._hash(version + 1) on a leaf, then node.value = nil, node.dirty = true
  let d1 := { d with hash := some (.leafH (version + 1) key value)
                     value := none, dirty := true }
  let n := Node.node d1 none none
  (n, { t1 with workingBytes := t1.workingBytes + n.sizeBytes
                workingSize := t1.workingSize + 1 })

/-- `Tree.returnNode`: drop a node from the working set (decrementing the
counters when it was dirty), log the orphan, and hand the slot back to the
pool (pool bookkeeping lives in the `nodePool` model). -/
def Tree.returnNode (t : Tree) (n : Node) : Tree :=
  let t1 :=
    if n.dirty then
      { t with workingBytes := t.workingBytes - n.sizeBytes
               workingSize := t.workingSize - 1 }
    else t
  { t1 with orphans := t1.orphans ++ [⟨true, n.key, n.subtreeHeight⟩] }

/-- Modelled from the spec: `MinRightToken` (spec §9 declares the
`sortKey` optimization in-progress with no semantics to be inferred; the
token functions only feed the `sortKey` field, which no claim constrains). -/
def MinRightToken (_a b : Bytes) : Bytes := b

/-- Modelled from the spec: `MinLeftToken`, mirror of `MinRightToken`. -/
def MinLeftToken (a _b : Bytes) : Bytes := a

/-- Modelled from the spec: `calcHeightAndSize` recomputes
`height = 1 + max(h_left, h_right)` and `size = size(left) + size(right)`
(spec §3 invariant 3); the Go source is not in the tree. -/
def Node.calcHeightAndSize (n : Node) : Except String Node :=
  match n.leftNode, n.rightNode with
  | some l, some r =>
    .ok (n.withData { n.data with
      subtreeHeight := 1 + max l.subtreeHeight r.subtreeHeight
      size := l.size + r.size })
  | _, _ => .error "calcHeightAndSize: nil child"

/-- Modelled from the spec: `balanceFactor = h_left − h_right` (spec §4.4). -/
def Node.balanceFactor (n : Node) : Except String Int :=
  match n.leftNode, n.rightNode with
  | some l, some r => .ok (l.subtreeHeight - r.subtreeHeight)
  | _, _ => .error "balanceFactor: nil child"

/-- Modelled from the spec: right rotation (spec §4.4 Balancing).  The two
affected inner nodes are orphaned and given new identities via
`addOrphan`/`mutateNode`, then restructured and their height/size
recomputed. -/
def Tree.rotateRight (t : Tree) (n : Node) : Except String (Node × Tree) := do
  let l ← n.left
  let t1 := t.addOrphan n
  let (n1, t2) := t1.mutateNode n
  let t3 := t2.addOrphan l
  let (l1, t4) := t3.mutateNode l
  let lr ← l1.right
  let n2 := n1.setLeft lr
  let n3 ← n2.calcHeightAndSize
  let newRoot := l1.setRight n3
  let newRoot1 ← newRoot.calcHeightAndSize
  return (newRoot1, t4)

/-- Modelled from the spec: left rotation, mirror of `rotateRight`. -/
def Tree.rotateLeft (t : Tree) (n : Node) : Except String (Node × Tree) := do
  let r ← n.right
  let t1 := t.addOrphan n
  let (n1, t2) := t1.mutateNode n
  let t3 := t2.addOrphan r
  let (r1, t4) := t3.mutateNode r
  let rl ← r1.left
  let n2 := n1.setRight rl
  let n3 ← n2.calcHeightAndSize
  let newRoot := r1.setLeft n3
  let newRoot1 ← newRoot.calcHeightAndSize
  return (newRoot1, t4)

/-- Modelled from the spec: `balance` (spec §4.4 Balancing and tie-break
rule).  `bf > 1` rotates right, with a preliminary left rotation of the left
child when that child leans right; mirror for `bf < −1`. -/
def Tree.balance (t : Tree) (n : Node) : Except String (Node × Tree) := do
  let bf ← n.balanceFactor
  if bf > 1 then
    let l ← n.left
    let lbf ← l.balanceFactor
    if lbf ≥ 0 then
      t.rotateRight n
    else
      let (newL, t1) ← t.rotateLeft l
      t1.rotateRight (n.setLeft newL)
  else if bf < -1 then
    let r ← n.right
    let rbf ← r.balanceFactor
    if rbf ≤ 0 then
      t.rotateLeft n
    else
      let (newR, t1) ← t.rotateRight r
      t1.rotateLeft (n.setRight newR)
  else
    return (n, t)

/-- `Tree.recursiveSet` from `db.go`: copy-on-write descent.  A leaf is
updated in place (re-hashed eagerly) or split under a new inner node; an
inner node is orphaned/touched, the descent recurses by key comparison, the
`sortKey` token is adjusted, height/size recomputed and the node rebalanced.
`mutateNode` preserves the child pointers, so recursing on the destructured
child of the input node is exactly `node.left(tree)`/`node.right(tree)` on
the touched node. -/
def Tree.recursiveSet (t : Tree) (n : Node) (key value : Bytes) :
    Except String (Node × Bool × Tree) :=
  match n with
  | .node d lOpt rOpt =>
    if d.subtreeHeight = 0 then
      match bcmp key d.key with
      | .lt =>
        let (nk, t1) := t.nextNodeKey
        let (newLeaf, t2) := t1.NewNode key value t1.version
        let pd : NodeData :=
          { nodeKey := nk, key := d.key, sortKey := MinRightToken key d.key
            value := none, subtreeHeight := 1, size := 2, hash := none
            dirty := true, leftNodeKey := emptyNodeKey
            rightNodeKey := emptyNodeKey, poolId := 0 }
        let parent := ((Node.node pd none none).setLeft newLeaf).setRight n
        .ok (parent, false,
          { t2 with workingBytes := t2.workingBytes + parent.sizeBytes
                    workingSize := t2.workingSize + 1 })
      | .gt =>
        let (nk, t1) := t.nextNodeKey
        let (newLeaf, t2) := t1.NewNode key value t1.version
        let pd : NodeData :=
          { nodeKey := nk, key := key, sortKey := MinRightToken key d.key
            value := none, subtreeHeight := 1, size := 2, hash := none
            dirty := true, leftNodeKey := emptyNodeKey
            rightNodeKey := emptyNodeKey, poolId := 0 }
        let parent := ((Node.node pd none none).setLeft n).setRight newLeaf
        .ok (parent, false,
          { t2 with workingBytes := t2.workingBytes + parent.sizeBytes
                    workingSize := t2.workingSize + 1 })
      | .eq =>
        let (n1, t1) := t.mutateNode n
        -- node.value = value; node._hash(tree.version + 1); node.value = nil
        let n2 := n1.withData { n1.data with
          hash := some (.leafH (t1.version + 1) n1.data.key value)
          value := none }
        .ok (n2, true, t1)
    else
      let t1 := t.addOrphan n
      let (n1, t2) := t1.mutateNode n
      if bcmp key d.key = .lt then
        match lOpt with
        | none => .error "node is nil"
        | some l =>
          match t2.recursiveSet l key value with
          | .error e => .error e
          | .ok (child, updated, t3) =>
            let n2 := n1.setLeft child
            if updated then .ok (n2, true, t3)
            else
              let n3 :=
                if startsWith key n2.sortKey then
                  if bcmp key n2.key = .lt then
                    n2.withData { n2.data with sortKey := MinRightToken n2.data.key key }
                  else
                    n2.withData { n2.data with sortKey := MinLeftToken n2.data.key key }
                else n2
              match n3.calcHeightAndSize with
              | .error e => .error e
              | .ok n4 =>
                match t3.balance n4 with
                | .error e => .error e
                | .ok (n5, t4) => .ok (n5, false, t4)
      else
        match rOpt with
        | none => .error "node is nil"
        | some r =>
          match t2.recursiveSet r key value with
          | .error e => .error e
          | .ok (child, updated, t3) =>
            let n2 := n1.setRight child
            if updated then .ok (n2, true, t3)
            else
              let n3 :=
                if startsWith key n2.sortKey then
                  if bcmp key n2.key = .lt then
                    n2.withData { n2.data with sortKey := MinRightToken n2.data.key key }
                  else
                    n2.withData { n2.data with sortKey := MinLeftToken n2.data.key key }
                else n2
              match n3.calcHeightAndSize with
              | .error e => .error e
              | .ok n4 =>
                match t3.balance n4 with
                | .error e => .error e
                | .ok (n5, t4) => .ok (n5, false, t4)

/-- `Tree.set` from `db.go`: nil values are rejected before any mutation; an
empty tree gets a fresh root leaf; otherwise the recursive descent runs.  On
an internal error the input tree is returned (internal errors are proved
unreachable from well-formed states). -/
def Tree.set (t : Tree) (key : Bytes) (value : Option Bytes) :
    Except String Bool × Tree :=
  match value with
  | none => (.error "attempt to store nil value at key", t)
  | some v =>
    match t.root with
    | none =>
      let (n, t1) := t.NewNode key v t.version
      (.ok false, { t1 with root := some n })
    | some rootN =>
      match t.recursiveSet rootN key v with
      | .error e => (.error e, t)
      | .ok (newRoot, updated, t1) =>
        (.ok updated, { t1 with root := some newRoot })

/-- `Tree.Set` from `db.go`: public wrapper (metrics and dot-graph emission
are host concerns and not modelled). -/
def Tree.SetOp (t : Tree) (key : Bytes) (value : Option Bytes) :
    Except String Bool × Tree :=
  match t.set key value with
  | (.error e, t1) => (.error e, t1)
  | (.ok updated, t1) => (.ok updated, t1)

/-- `Tree.recursiveRemove` from `db.go`.  Returns the replacement subtree
(`none` when the subtree was the removed leaf), the new leftmost leaf key of
the subtree when it changed, the removed leaf's in-memory `value`, the
`removed` flag, and the threaded tree state. -/
def Tree.recursiveRemove (t : Tree) (n : Node) (key : Bytes) :
    Except String (Option Node × Option Bytes × Option Bytes × Bool × Tree) :=
  match n with
  | .node d lOpt rOpt =>
    if d.subtreeHeight = 0 then
      if key = d.key then
        .ok (none, none, d.value, true, t.returnNode n)
      else
        .ok (some n, none, none, false, t)
    else
      if bcmp key d.key = .lt then
        match lOpt with
        | none => .error "left child not resident"
        | some l =>
          match t.recursiveRemove l key with
          | .error e => .error e
          | .ok (newLeftNode, newKey, value, removed, t1) =>
            if ¬removed then
              .ok (some n, none, value, false, t1)
            else
              match newLeftNode with
              | none =>
                -- left node held value, was removed; collapse right into node
                match rOpt with
                | none => .error "right child not resident"
                | some r => .ok (some r, some d.key, value, true, t1.returnNode n)
              | some newL =>
                let t2 := t1.addOrphan n
                let (n1, t3) := t2.mutateNode n
                let n2 := n1.setLeft newL
                match n2.calcHeightAndSize with
                | .error e => .error e
                | .ok n3 =>
                  match t3.balance n3 with
                  | .error e => .error e
                  | .ok (n4, t4) => .ok (some n4, newKey, value, true, t4)
      else
        match rOpt with
        | none => .error "right child not resident"
        | some r =>
          match t.recursiveRemove r key with
          | .error e => .error e
          | .ok (newRightNode, newKey, value, removed, t1) =>
            if ¬removed then
              .ok (some n, none, value, false, t1)
            else
              match newRightNode with
              | none =>
                -- right node held value, was removed; collapse left into node
                match lOpt with
                | none => .error "left child not resident"
                | some l => .ok (some l, none, value, true, t1.returnNode n)
              | some newR =>
                let t2 := t1.addOrphan n
                let (n1, t3) := t2.mutateNode n
                let n2 := n1.setRight newR
                let n3 :=
                  match newKey with
                  | some nk => n2.withData { n2.data with key := nk }
                  | none => n2
                match n3.calcHeightAndSize with
                | .error e => .error e
                | .ok n4 =>
                  match t3.balance n4 with
                  | .error e => .error e
                  | .ok (n5, t4) => .ok (some n5, none, value, true, t4)
termination_by structural n

/-- `Tree.Remove` from `db.go`: public wrapper.  An empty tree and a missing
key both return `(nil, false)`; a successful removal installs the new root
and returns the removed leaf's in-memory `value`. -/
def Tree.RemoveOp (t : Tree) (key : Bytes) :
    Except String (Option Bytes × Bool) × Tree :=
  match t.root with
  | none => (.ok (none, false), t)
  | some rootN =>
    match t.recursiveRemove rootN key with
    | .error e => (.error e, t)
    | .ok (newRoot, _, value, removed, t1) =>
      if ¬removed then (.ok (none, false), t1)
      else (.ok (value, true), { t1 with root := newRoot })

/-- `Tree.Size` from `db.go`: `return tree.root.size` with no nil check; on
an empty tree the Go code dereferences a nil pointer and panics, modelled as
an error. -/
def Tree.Size (t : Tree) : Except String Int :=
  match t.root with
  | none => .error "nil pointer dereference"
  | some n => .ok n.size

/-- `Tree.Height` from `db.go`: `return tree.root.subtreeHeight`, same nil
dereference as `Tree.Size` on an empty tree. -/
def Tree.Height (t : Tree) : Except String Int :=
  match t.root with
  | none => .error "nil pointer dereference"
  | some n => .ok n.subtreeHeight

/-- `Tree.deepHash` from `db.go`, for tree version `version` (the bumped
`tree.version`).  Returns the re-hashed subtree, the dirty leaves and dirty
branches collected for persistence (in append order: a branch precedes its
descendants), and the `(isLeaf, isDirty)` flags of the root of the subtree.
In Go the lists collect pointers that are hashed afterwards; here the
already-hashed node values are collected, which is what the subsequent
store writes observe.  After hashing, leaf children are detached from their
parent (clean leaves additionally go back to the pool; pool bookkeeping is
not threaded through the tree ops). -/
def Tree.deepHash (version : Int) : Node → Except String (Node × List Node × List Node × Bool × Bool)
  | n@(.node d lOpt rOpt) =>
    let isLeaf : Bool := d.subtreeHeight = 0
    let isDirty : Bool := d.nodeKey.version = version
    if d.hash.isSome then
      -- nodes with a hash end recursion here; collected as-is when dirty
      .ok (n, if isDirty && isLeaf then [n] else [],
              if isDirty && !isLeaf then [n] else [], isLeaf, isDirty)
    else
      match lOpt, rOpt with
      | some l, some r =>
        match Tree.deepHash version l with
        | .error e => .error e
        | .ok (l1, lv1, br1, leftIsLeaf, _leftIsDirty) =>
          match Tree.deepHash version r with
          | .error e => .error e
          | .ok (r1, lv2, br2, rightIsLeaf, _rightIsDirty) =>
            match l1.hash, r1.hash with
            | some hl, some hr =>
              -- node._hash(tree.version)
              let h := HashVal.branchH version d.subtreeHeight d.size d.key hl hr
              -- hashed leaf children are detached (clean ones pooled)
              let newL := if leftIsLeaf then none else some l1
              let newR := if rightIsLeaf then none else some r1
              let n1 := Node.node { d with hash := some h } newL newR
              .ok (n1, lv1 ++ lv2,
                   (if isDirty then [n1] else []) ++ br1 ++ br2, false, isDirty)
            | _, _ => .error "child hash missing"
      | _, _ => .error "node is nil"

/-- A store write observed by the backend, in order (spec §4.6/§6: node
records for leaves and branches, and the version→root record). -/
inductive StoreEvent : Type
  | writeLeaf (nk : NodeKey)
  | writeBranch (nk : NodeKey)
  | writeRoot (version : Int)
deriving DecidableEq, Repr

/-- Byte order of the 12-byte big-endian `NodeKey` encoding: version, then
sequence (versions are nonnegative in every verified scenario). -/
def nkLE (a b : NodeKey) : Bool :=
  a.version < b.version || (a.version = b.version && a.seqnum ≤ b.seqnum)

/-- Insertion into a list sorted by `nkLE` on the node key. -/
def insertByNk (n : Node) : List Node → List Node
  | [] => [n]
  | m :: rest =>
    if nkLE n.nodeKey m.nodeKey then n :: m :: rest
    else m :: insertByNk n rest

/-- `sort.Slice(..., bytes.Compare(nodeKey) < 0)` on a node list. -/
def sortByNk : List Node → List Node
  | [] => []
  | n :: rest => insertByNk n (sortByNk rest)

/-- `Tree.SaveVersion` from `db.go` (the SQL-backed path).  The backend
(`sql.BatchSet`, `sql.SaveRoot`, and the version-1 shard bootstrap) is not
in the source tree; modelled from the spec as a store that persists the
given records and may fail with a `BackendError`, signalled here by the
`leafWriteOk`/`rootWriteOk` flags.  Mirrors the source control flow: the
version is bumped and the sequence reset first, `deepHash` collects and
hashes the dirty nodes, leaves are batch-written (branches too when
`version == 1`), the working vectors and orphan log are cleared, and the
root record is written last.  Error returns happen exactly where the source
returns, with whatever in-memory state exists at that point. -/
def Tree.saveVersion (t : Tree) (leafWriteOk rootWriteOk : Bool) :
    Except String (Option HashVal × Int) × Tree × List StoreEvent :=
  let v := t.version + 1
  let t0 := { t with version := v, sequenceCtr := 0 }
  match t0.root with
  | none => (.error "nil pointer dereference in deepHash", t0, [])
  | some rootN =>
    match Tree.deepHash v rootN with
    | .error e => (.error e, t0, [])
    | .ok (root1, lv, br, _, _) =>
      let t1 := { t0 with root := some root1
                          leaves := t0.leaves ++ lv
                          branches := t0.branches ++ br }
      if ¬leafWriteOk then
        (.error "batch set leaves: backend error", t1, [])
      else
        let evs1 := t1.leaves.map (fun n => StoreEvent.writeLeaf n.nodeKey)
        let evs2 :=
          if v = 1 then t1.branches.map (fun n => StoreEvent.writeBranch n.nodeKey)
          else []
        let t2 := { t1 with leaves := [], branches := [], orphans := [] }
        if ¬rootWriteOk then
          (.error "failed to save root: backend error", t2, evs1 ++ evs2)
        else
          (.ok (root1.hash, v), t2, evs1 ++ evs2 ++ [.writeRoot v])

/-- `Tree.SaveVersionKV` from `db.go`.  The `KvDB` store methods
(`setBranch`, `setLeaf`, `setRoot`) are not in the source tree; modelled
from the spec as node-record and root-record writes.  Mirrors the source:
bump version, reset sequence, `deepHash`, write the branches sorted by node
key when `version == 1`, write the leaves sorted by node key, clear the
working vectors and orphan log, write the root record last. -/
def Tree.saveVersionKV (t : Tree) :
    Except String (Option HashVal × Int) × Tree × List StoreEvent :=
  let v := t.version + 1
  let t0 := { t with version := v, sequenceCtr := 0 }
  match t0.root with
  | none => (.error "nil pointer dereference in deepHash", t0, [])
  | some rootN =>
    match Tree.deepHash v rootN with
    | .error e => (.error e, t0, [])
    | .ok (root1, lv, br, _, _) =>
      let t1 := { t0 with root := some root1
                          leaves := t0.leaves ++ lv
                          branches := t0.branches ++ br }
      let evs1 :=
        if v = 1 then (sortByNk t1.branches).map (fun n => StoreEvent.writeBranch n.nodeKey)
        else []
      let evs2 := (sortByNk t1.leaves).map (fun n => StoreEvent.writeLeaf n.nodeKey)
      let t2 := { t1 with leaves := [], branches := [], orphans := [] }
      (.ok (root1.hash, v), t2, evs1 ++ evs2 ++ [.writeRoot v])

/-- `Tree.buildCheckpoint` from `db.go`: collect a copy of every node with
`nodeKey.version > lastCheckpoint`, recursing through the in-memory child
pointers only (a leaf's children are never visited; recursion stops at a
detached pointer).  Each copy takes the persistent fields of the node and
fresh (nil) child pointers, as the Go copy into a pool slot does.  The Go
side effects (cache insertion, clearing `dirty`, detaching the visited
branch's children) do not affect the collected batch and are not modelled. -/
def buildCheckpointList (lastCP : Int) : Option Node → List Node
  | none => []
  | some (.node d lOpt rOpt) =>
    if d.nodeKey.version ≤ lastCP then []
    else
      let copy := Node.node
        { nodeKey := d.nodeKey, key := d.key, sortKey := [], value := none
          subtreeHeight := d.subtreeHeight, size := d.size, hash := d.hash
          dirty := false, leftNodeKey := d.leftNodeKey
          rightNodeKey := d.rightNodeKey, poolId := 0 } none none
      if d.subtreeHeight = 0 then [copy]
      else copy :: (buildCheckpointList lastCP lOpt ++ buildCheckpointList lastCP rOpt)

/-- `Tree.asyncCheckpoint` from `db.go`: build the checkpoint batch and fail
when its size disagrees with `workingSize`; on success the batch is handed
to the checkpointer (the channel send is outside the core state). -/
def Tree.asyncCheckpoint (t : Tree) : Except String (List Node) :=
  let s := buildCheckpointList t.lastCheckpoint t.root
  if (s.length : Int) = t.workingSize then .ok s
  else .error "set count mismatch"

/-- `nodeSize`, the per-slot byte constant of the pool (`nodepool.go`
references it; its declaration is not in the source tree, and no claim
constrains its value). -/
def nodeSize : Nat := 64

/-- `initialNodePoolSize` from `nodepool.go`. -/
def initialNodePoolSize : Nat := 1000000

/-- The node pool (`nodePool` in `nodepool.go`): a slot arena with a FIFO
free list (the Go buffered channel: send = append, receive = head). -/
structure NodePool where
  nodes : List Node
  free : List Nat
  poolSize : Nat

/-- `nodePool.grow` from `nodepool.go`: append `amount` empty slots, each
carrying its own `poolId`, and push their ids onto the free list. -/
def NodePool.grow (np : NodePool) (amount : Nat) : NodePool :=
  let startSize := np.nodes.length
  { nodes := np.nodes ++ (List.range amount).map (fun i =>
      Node.node
        { nodeKey := emptyNodeKey, key := [], sortKey := [], value := none
          subtreeHeight := 0, size := 0, hash := none, dirty := false
          leftNodeKey := emptyNodeKey, rightNodeKey := emptyNodeKey
          poolId := startSize + i } none none)
    free := np.free ++ (List.range amount).map (fun i => startSize + i)
    poolSize := np.poolSize + amount * nodeSize }

/-- `newNodePool` from `nodepool.go`. -/
def newNodePool : NodePool :=
  NodePool.grow { nodes := [], free := [], poolSize := 0 } initialNodePoolSize

/-- `nodePool.resetNode` from `nodepool.go`: clears exactly the fields the
source lists — child keys and pointers, node key, hash, key, value, height,
size and the dirty flag.  The slot index `poolId` and the `sortKey` field
are not touched by the source. -/
def NodePool.resetNode (n : Node) : Node :=
  Node.node
    { nodeKey := emptyNodeKey, key := [], sortKey := n.sortKey, value := none
      subtreeHeight := 0, size := 0, hash := none, dirty := false
      leftNodeKey := emptyNodeKey, rightNodeKey := emptyNodeKey
      poolId := n.poolId } none none

/-- `nodePool.Put` from `nodepool.go`: reset the node's slot, then push its
id onto the free list. -/
def NodePool.Put (np : NodePool) (n : Node) : NodePool :=
  { np with nodes := np.nodes.set n.poolId (NodePool.resetNode n)
            free := np.free ++ [n.poolId] }

/-- `nodePool.Get` from `nodepool.go`: grow (doubling) when the free list is
empty, pop the next free id, and assert that the slot's hash is nil (the Go
panic is modelled as the error carrying the panic message). -/
def NodePool.Get (np : NodePool) : Except String (Node × NodePool) :=
  let np1 := if np.free.length = 0 then np.grow np.nodes.length else np
  match np1.free with
  | [] => .error "pool exhausted"
  | poolId :: rest =>
    match np1.nodes[poolId]? with
    | none => .error "free list id out of range"
    | some n =>
      if n.hash.isSome then
        .error "invariant violated: node hash should be nil when fetched from pool"
      else
        .ok (n, { np1 with free := rest })

/-- Ordered insert-or-replace into a key→value association list: the
functional effect of `set` on the in-order leaf association. -/
def insertKV : List (Bytes × Bytes) → Bytes → Bytes → List (Bytes × Bytes)
  | [], k, v => [(k, v)]
  | (k0, v0) :: rest, k, v =>
    match bcmp k k0 with
    | .lt => (k, v) :: (k0, v0) :: rest
    | .eq => (k0, v) :: rest
    | .gt => (k0, v0) :: insertKV rest k v

/-- Remove the first entry with the given key from an association list: the
functional effect of `remove` on the in-order leaf association. -/
def eraseKV : List (Bytes × Bytes) → Bytes → List (Bytes × Bytes)
  | [], _ => []
  | (k0, v0) :: rest, k => if k = k0 then rest else (k0, v0) :: eraseKV rest k

/-- All nodes of a subtree reachable through the in-memory child pointers
(the node itself first). -/
def subNodes : Node → List Node
  | n@(.node _ lOpt rOpt) =>
    n :: ((match lOpt with | some x => subNodes x | none => [])
       ++ (match rOpt with | some x => subNodes x | none => []))

/-- Well-formedness of an in-memory working subtree whose nodes were all
created in session version `v` (every node of a from-empty session).  A leaf
has height 0, size 1, no resident children, a cleared `value` and an eager
leaf hash over its key; an inner node has both children resident, no hash
yet, correct height/size, all left keys strictly below its key, and its key
equal to the smallest key of its right subtree.  Every node is dirty and
stamped with version `v`. -/
def WFv (v : Int) : Node → Prop
  | .node d lOpt rOpt =>
    d.nodeKey.version = v ∧ d.dirty = true ∧
    (if d.subtreeHeight = 0 then
      lOpt = none ∧ rOpt = none ∧ d.size = 1 ∧ d.value = none ∧
      ∃ val, d.hash = some (.leafH v d.key val)
    else
      match lOpt, rOpt with
      | some l, some r =>
        WFv v l ∧ WFv v r ∧ d.hash = none ∧
        (∀ x ∈ nodeKeys l, kLT x d.key) ∧
        (nodeKeys r).head? = some d.key ∧
        d.subtreeHeight = 1 + max l.subtreeHeight r.subtreeHeight ∧
        d.size = l.size + r.size
      | _, _ => False)

/-- Invariant of a from-empty mutation session: version and checkpoint
marker still at 0, a well-formed working tree, and the working-size counter
equal to the number of in-memory nodes. -/
def SessionInv (t : Tree) : Prop :=
  t.version = 0 ∧ t.lastCheckpoint = 0 ∧
  match t.root with
  | none => t.workingSize = 0
  | some n => WFv 1 n ∧ t.workingSize = (nodeCount n : Int)

/-- A public mutation of the working tree. -/
inductive Op : Type
  | setOp (k v : Bytes)
  | removeOp (k : Bytes)

/-- Apply a public mutation through the public API. -/
def applyOp (t : Tree) : Op → Tree
  | .setOp k v => (t.SetOp k (some v)).2
  | .removeOp k => (t.RemoveOp k).2

/-- Tree states reachable from a fresh tree through the public mutation API
(`Set`/`Remove`) before the first `SaveVersion`. -/
def Reachable (t : Tree) : Prop :=
  ∃ ops : List Op, t = ops.foldl applyOp newTree

/-- The keys currently stored in a tree, in order. -/
def treeKeys (t : Tree) : List Bytes :=
  match t.root with
  | none => []
  | some n => nodeKeys n

/-- The key→value mapping currently stored in a tree, in order. -/
def treeAssoc (t : Tree) : List (Bytes × Bytes) :=
  match t.root with
  | none => []
  | some n => leafAssoc n

/-- All in-memory nodes of a tree. -/
def treeNodes (t : Tree) : List Node :=
  match t.root with
  | none => []
  | some n => subNodes n

/-- Number of in-memory nodes of a tree, as an `Int` for comparison with the
`workingSize` counter. -/
def countT (t : Tree) : Int :=
  match t.root with
  | none => 0
  | some n => (nodeCount n : Int)

/-- The fields of a well-formed inner node other than the height/size
equations (used for nodes whose height is momentarily stale between
rotations): identity stamped in session `v`, dirty, unhashed, inner, with
well-formed children, all left keys below the separator, and the separator
equal to the smallest key of the right subtree. -/
def InnerParts (v : Int) (d : NodeData) (l r : Node) : Prop :=
  d.nodeKey.version = v ∧ d.dirty = true ∧ d.hash = none ∧
  d.subtreeHeight ≠ 0 ∧ WFv v l ∧ WFv v r ∧
  (∀ x ∈ nodeKeys l, kLT x d.key) ∧ (nodeKeys r).head? = some d.key

/-- Invariant of the node pool: every slot on the free list exists, carries
its own index as `poolId`, and has a nil hash (so the `Get` assertion cannot
fire). -/
def PoolInv (np : NodePool) : Prop :=
  ∀ pid ∈ np.free, ∃ n, np.nodes[pid]? = some n ∧ n.hash = none ∧ n.poolId = pid

/-- Concrete scenario: the one-key session `set [97] [49]`. -/
def exOps1 : List Op := [.setOp [97] [49]]

/-- The tree of `exOps1`. -/
def exT1 : Tree := exOps1.foldl applyOp newTree

/-- Concrete scenario: the two-key session `set [97] [49]; set [98] [50]`. -/
def exOps2 : List Op := [.setOp [97] [49], .setOp [98] [50]]

/-- The tree of `exOps2`: an inner node over the leaves `[97]` and `[98]`. -/
def exT2 : Tree := exOps2.foldl applyOp newTree

/-- Concrete scenario: the three-key session for witnesses. -/
def exOps3 : List Op := [.setOp [97] [49], .setOp [98] [50], .setOp [99] [51]]

/-- The tree of `exOps3`. -/
def exT3 : Tree := exOps3.foldl applyOp newTree

/-- Concrete scenario for the save-version claims: commit `[97] ↦ [49]` as
version 1. -/
def exC1 : Tree := (exT1.saveVersionKV).2.1

/-- Then set `[98] ↦ [50]` in the working set of version 2: the root becomes
a dirty branch stamped with version 2. -/
def exC2 : Tree := (exC1.SetOp [98] (some [50])).2

/-- A pool slot carrying a non-empty `sortKey` and a hash, for exercising
`nodePool.Put`. -/
def cexPoolNode : Node :=
  Node.node
    { nodeKey := ⟨1, 1⟩, key := [7], sortKey := [1], value := none
      subtreeHeight := 0, size := 1, hash := some (.leafH 1 [7] [9])
      dirty := true, leftNodeKey := emptyNodeKey, rightNodeKey := emptyNodeKey
      poolId := 0 } none none

/-- A one-slot pool holding `cexPoolNode`. -/
def cexPool : NodePool := { nodes := [cexPoolNode], free := [], poolSize := nodeSize }

/-- A concrete well-formed working leaf `[97] ↦ [49]` of session version 1. -/
def c5leafA : Node :=
  Node.node
    { nodeKey := ⟨1, 1⟩, key := [97], sortKey := [97], value := none
      subtreeHeight := 0, size := 1, hash := some (.leafH 1 [97] [49])
      dirty := true, leftNodeKey := emptyNodeKey, rightNodeKey := emptyNodeKey
      poolId := 0 } none none

/-- A concrete well-formed working leaf `[98] ↦ [50]` of session version 1. -/
def c5leafB : Node :=
  Node.node
    { nodeKey := ⟨1, 2⟩, key := [98], sortKey := [98], value := none
      subtreeHeight := 0, size := 1, hash := some (.leafH 1 [98] [50])
      dirty := true, leftNodeKey := emptyNodeKey, rightNodeKey := emptyNodeKey
      poolId := 0 } none none

/-- The inner-node data joining `c5leafA` and `c5leafB` (separator `[98]`). -/
def c5data : NodeData :=
  { nodeKey := ⟨1, 3⟩, key := [98], sortKey := [97], value := none
    subtreeHeight := 1, size := 2, hash := none, dirty := true
    leftNodeKey := ⟨1, 1⟩, rightNodeKey := ⟨1, 2⟩, poolId := 0 }

/-! ### Constructor-form reduction lemmas for node accessors -/

@[simp] theorem data_node (d : NodeData) (l r : Option Node) :
    (Node.node d l r).data = d := rfl

@[simp] theorem leftNode_node (d : NodeData) (l r : Option Node) :
    (Node.node d l r).leftNode = l := rfl

@[simp] theorem rightNode_node (d : NodeData) (l r : Option Node) :
    (Node.node d l r).rightNode = r := rfl

@[simp] theorem withData_node (d d' : NodeData) (l r : Option Node) :
    (Node.node d l r).withData d' = .node d' l r := rfl

@[simp] theorem nodeKey_node (d : NodeData) (l r : Option Node) :
    (Node.node d l r).nodeKey = d.nodeKey := rfl

@[simp] theorem key_node (d : NodeData) (l r : Option Node) :
    (Node.node d l r).key = d.key := rfl

@[simp] theorem sortKey_node (d : NodeData) (l r : Option Node) :
    (Node.node d l r).sortKey = d.sortKey := rfl

@[simp] theorem value_node (d : NodeData) (l r : Option Node) :
    (Node.node d l r).value = d.value := rfl

@[simp] theorem subtreeHeight_node (d : NodeData) (l r : Option Node) :
    (Node.node d l r).subtreeHeight = d.subtreeHeight := rfl

@[simp] theorem size_node (d : NodeData) (l r : Option Node) :
    (Node.node d l r).size = d.size := rfl

@[simp] theorem hash_node (d : NodeData) (l r : Option Node) :
    (Node.node d l r).hash = d.hash := rfl

@[simp] theorem dirty_node (d : NodeData) (l r : Option Node) :
    (Node.node d l r).dirty = d.dirty := rfl

@[simp] theorem poolId_node (d : NodeData) (l r : Option Node) :
    (Node.node d l r).poolId = d.poolId := rfl

@[simp] theorem isLeaf_node (d : NodeData) (l r : Option Node) :
    (Node.node d l r).isLeaf = (d.subtreeHeight == 0) := rfl

@[simp] theorem left_node_some (d : NodeData) (l : Node) (r : Option Node) :
    (Node.node d (some l) r).left = .ok l := rfl

@[simp] theorem left_node_none (d : NodeData) (r : Option Node) :
    (Node.node d none r).left = .error "left child not resident" := rfl

@[simp] theorem right_node_some (d : NodeData) (l : Option Node) (r : Node) :
    (Node.node d l (some r)).right = .ok r := rfl

@[simp] theorem right_node_none (d : NodeData) (l : Option Node) :
    (Node.node d l none).right = .error "right child not resident" := rfl

@[simp] theorem setLeft_node (d : NodeData) (l r : Option Node) (c : Node) :
    (Node.node d l r).setLeft c = .node { d with leftNodeKey := c.data.nodeKey } (some c) r := rfl

@[simp] theorem setRight_node (d : NodeData) (l r : Option Node) (c : Node) :
    (Node.node d l r).setRight c = .node { d with rightNodeKey := c.data.nodeKey } l (some c) := rfl

/-! ### Order lemmas for byte-string comparison -/

theorem bcmp_refl : ∀ a : Bytes, bcmp a a = .eq
  | [] => rfl
  | x :: xs => by
    unfold bcmp
    rw [if_neg (lt_irrefl x), if_neg (lt_irrefl x)]
    exact bcmp_refl xs

theorem bcmp_eq_then : ∀ {a b : Bytes}, bcmp a b = .eq → a = b
  | [], [], _ => rfl
  | [], _ :: _, h => absurd h (by simp [bcmp])
  | _ :: _, [], h => absurd h (by simp [bcmp])
  | x :: xs, y :: ys, h => by
    unfold bcmp at h
    rcases Nat.lt_trichotomy x y with hlt | heq | hgt
    · rw [if_pos hlt] at h; exact absurd h (by simp)
    · subst heq
      rw [if_neg (lt_irrefl x), if_neg (lt_irrefl x)] at h
      exact congrArg (List.cons x) (bcmp_eq_then h)
    · rw [if_neg (Nat.lt_asymm hgt), if_pos hgt] at h; exact absurd h (by simp)

theorem bcmp_eq_iff {a b : Bytes} : bcmp a b = .eq ↔ a = b :=
  ⟨bcmp_eq_then, fun h => h ▸ bcmp_refl a⟩

theorem bcmp_gt_iff_lt : ∀ {a b : Bytes}, bcmp a b = .gt ↔ bcmp b a = .lt
  | [], [] => by simp [bcmp]
  | [], _ :: _ => by simp [bcmp]
  | _ :: _, [] => by simp [bcmp]
  | x :: xs, y :: ys => by
    unfold bcmp
    rcases Nat.lt_trichotomy x y with hlt | heq | hgt
    · rw [if_pos hlt, if_neg (Nat.lt_asymm hlt), if_pos hlt]; simp
    · subst heq
      rw [if_neg (lt_irrefl x), if_neg (lt_irrefl x), if_neg (lt_irrefl x),
        if_neg (lt_irrefl x)]
      exact bcmp_gt_iff_lt
    · rw [if_neg (Nat.lt_asymm hgt), if_pos hgt, if_pos hgt]; simp

theorem not_kLT_nil : ∀ b : Bytes, ¬ kLT b []
  | [] => by simp [kLT, bcmp]
  | _ :: _ => by simp [kLT, bcmp]

theorem kLT_trans : ∀ {a b c : Bytes}, kLT a b → kLT b c → kLT a c
  | [], _, [], _, h2 => absurd h2 (not_kLT_nil _)
  | [], _, _ :: _, _, _ => by simp [kLT, bcmp]
  | _ :: _, [], _, h1, _ => absurd h1 (not_kLT_nil _)
  | _ :: _, _ :: _, [], _, h2 => absurd h2 (not_kLT_nil _)
  | x :: xs, y :: ys, z :: zs, h1, h2 => by
    unfold kLT bcmp at h1 h2
    have H1 : x < y ∨ (x = y ∧ bcmp xs ys = .lt) := by
      by_cases hxy : x < y
      · exact .inl hxy
      · by_cases hyx : y < x
        · rw [if_neg hxy, if_pos hyx] at h1; exact absurd h1 (by simp)
        · refine .inr ⟨Nat.le_antisymm (Nat.not_lt.mp hyx) (Nat.not_lt.mp hxy), ?_⟩
          rwa [if_neg hxy, if_neg hyx] at h1
    have H2 : y < z ∨ (y = z ∧ bcmp ys zs = .lt) := by
      by_cases hyz : y < z
      · exact .inl hyz
      · by_cases hzy : z < y
        · rw [if_neg hyz, if_pos hzy] at h2; exact absurd h2 (by simp)
        · refine .inr ⟨Nat.le_antisymm (Nat.not_lt.mp hzy) (Nat.not_lt.mp hyz), ?_⟩
          rwa [if_neg hyz, if_neg hzy] at h2
    unfold kLT bcmp
    rcases H1 with hxy | ⟨rfl, r1⟩
    · rcases H2 with hyz | ⟨rfl, _⟩
      · rw [if_pos (Nat.lt_trans hxy hyz)]
      · rw [if_pos hxy]
    · rcases H2 with hyz | ⟨rfl, r2⟩
      · rw [if_pos hyz]
      · rw [if_neg (lt_irrefl x), if_neg (lt_irrefl x)]
        exact kLT_trans r1 r2

theorem kLT_irrefl (a : Bytes) : ¬ kLT a a := by simp [kLT, bcmp_refl]

theorem kLT_ne {a b : Bytes} (h : kLT a b) : a ≠ b :=
  fun e => kLT_irrefl a (e ▸ h)

theorem kLT_asymm {a b : Bytes} (h : kLT a b) : ¬ kLT b a :=
  fun h2 => kLT_irrefl a (kLT_trans h h2)

theorem bcmp_gt_then {a b : Bytes} (h : bcmp a b = .gt) : kLT b a :=
  bcmp_gt_iff_lt.mp h

theorem ge_of_not_kLT {a b : Bytes} (h : bcmp a b ≠ .lt) : a = b ∨ kLT b a := by
  cases hc : bcmp a b with
  | lt => exact absurd hc h
  | eq => exact .inl (bcmp_eq_then hc)
  | gt => exact .inr (bcmp_gt_then hc)

theorem kLT_of_le_of_lt {a b c : Bytes} (h1 : a = b ∨ kLT a b) (h2 : kLT b c) :
    kLT a c := by
  rcases h1 with rfl | h1
  · exact h2
  · exact kLT_trans h1 h2

theorem kLT_of_lt_of_le {a b c : Bytes} (h1 : kLT a b) (h2 : b = c ∨ kLT b c) :
    kLT a c := by
  rcases h2 with rfl | h2
  · exact h1
  · exact kLT_trans h1 h2

/-! ### Association-list lemmas -/

theorem lookupA_insertKV : ∀ (l : List (Bytes × Bytes)) (k v : Bytes),
    lookupA (insertKV l k v) k = some v
  | [], k, v => by simp [insertKV, lookupA]
  | (k0, v0) :: rest, k, v => by
    unfold insertKV
    cases hc : bcmp k k0 with
    | lt => simp [lookupA]
    | eq => simp [lookupA, bcmp_eq_then hc]
    | gt =>
      have hne : k ≠ k0 := (kLT_ne (bcmp_gt_then hc)).symm
      simp [lookupA, hne, lookupA_insertKV rest k v]

theorem mem_map_fst {l : List (Bytes × Bytes)} {k : Bytes} :
    k ∈ l.map Prod.fst ↔ ∃ v, (k, v) ∈ l := by
  constructor
  · intro h
    obtain ⟨⟨a, b⟩, hm, he⟩ := List.mem_map.mp h
    exact ⟨b, by simpa [show a = k from he] using hm⟩
  · rintro ⟨v, hm⟩
    exact List.mem_map.mpr ⟨(k, v), hm, rfl⟩

theorem mem_map_fst_insertKV : ∀ (l : List (Bytes × Bytes)) (k v x : Bytes),
    x ∈ (insertKV l k v).map Prod.fst ↔ x = k ∨ x ∈ l.map Prod.fst
  | [], k, v, x => by simp [insertKV]
  | (k0, v0) :: rest, k, v, x => by
    unfold insertKV
    cases hc : bcmp k k0 with
    | lt => simp only [hc]; simp
    | eq =>
      have he : k = k0 := bcmp_eq_then hc
      subst he; simp only [hc]; simp
    | gt =>
      simp only [hc, List.map_cons, List.mem_cons,
        mem_map_fst_insertKV rest k v x]
      tauto

theorem insertKV_append_left :
    ∀ (lA rA : List (Bytes × Bytes)) (k v : Bytes),
    (∀ kr ∈ rA.map Prod.fst, kLT k kr) →
    insertKV (lA ++ rA) k v = insertKV lA k v ++ rA
  | [], rA, k, v, h => by
    cases rA with
    | nil => simp [insertKV]
    | cons p rest =>
      have hlt : bcmp k p.1 = .lt := h p.1 (by simp)
      simp only [List.nil_append, insertKV, hlt]
      simp
  | (k0, v0) :: lrest, rA, k, v, h => by
    unfold insertKV
    cases hc : bcmp k k0 with
    | lt => simp only [hc, List.cons_append]
    | eq => simp only [hc, List.cons_append]
    | gt =>
      simp only [hc, List.cons_append, List.append_eq]
      rw [insertKV_append_left lrest rA k v h]

theorem insertKV_append_right :
    ∀ (lA rA : List (Bytes × Bytes)) (k v : Bytes),
    (∀ kl ∈ lA.map Prod.fst, kLT kl k) →
    insertKV (lA ++ rA) k v = lA ++ insertKV rA k v
  | [], rA, k, v, _ => by simp
  | (k0, v0) :: lrest, rA, k, v, h => by
    have hk0 : kLT k0 k := h k0 (by simp)
    have hgt : bcmp k k0 = .gt := bcmp_gt_iff_lt.mpr hk0
    simp only [List.cons_append, insertKV, hgt, List.append_eq]
    rw [insertKV_append_right lrest rA k v (fun kl hm => h kl (by simp [hm]))]

theorem head_insertKV_of_not_lt (k0 v0 : Bytes) (rest : List (Bytes × Bytes))
    (k v : Bytes) (h : bcmp k k0 ≠ .lt) :
    ((insertKV ((k0, v0) :: rest) k v).map Prod.fst).head? = some k0 := by
  unfold insertKV
  cases hc : bcmp k k0 with
  | lt => exact absurd hc h
  | eq => simp only [hc]; simp
  | gt => simp only [hc]; simp

theorem eraseKV_not_mem : ∀ (l : List (Bytes × Bytes)) (k : Bytes),
    k ∉ l.map Prod.fst → eraseKV l k = l
  | [], _, _ => rfl
  | (k0, v0) :: rest, k, h => by
    have h1 : k ≠ k0 := fun e => h (by simp [e])
    have h2 : k ∉ rest.map Prod.fst := fun hm => h (by simp; tauto)
    simp [eraseKV, h1, eraseKV_not_mem rest k h2]

theorem eraseKV_append_left : ∀ (lA rA : List (Bytes × Bytes)) (k : Bytes),
    k ∈ lA.map Prod.fst → eraseKV (lA ++ rA) k = eraseKV lA k ++ rA
  | [], _, _, h => by simp at h
  | (k0, v0) :: lrest, rA, k, h => by
    by_cases he : k = k0
    · simp [eraseKV, he]
    · have h2 : k ∈ lrest.map Prod.fst := by
        obtain ⟨w, hw⟩ := mem_map_fst.mp h
        rcases List.mem_cons.mp hw with he2 | hw2
        · exact absurd (congrArg Prod.fst he2) he
        · exact mem_map_fst.mpr ⟨w, hw2⟩
      simp [eraseKV, he, eraseKV_append_left lrest rA k h2]

theorem eraseKV_append_right : ∀ (lA rA : List (Bytes × Bytes)) (k : Bytes),
    k ∉ lA.map Prod.fst → eraseKV (lA ++ rA) k = lA ++ eraseKV rA k
  | [], _, _, _ => by simp
  | (k0, v0) :: lrest, rA, k, h => by
    have h1 : k ≠ k0 := fun e => h (by simp [e])
    have h2 : k ∉ lrest.map Prod.fst := fun hm => h (by simp; tauto)
    simp [eraseKV, h1, eraseKV_append_right lrest rA k h2]

theorem map_fst_eraseKV : ∀ (l : List (Bytes × Bytes)) (k : Bytes),
    (eraseKV l k).map Prod.fst = (l.map Prod.fst).erase k
  | [], _ => rfl
  | (k0, v0) :: rest, k => by
    by_cases he : k = k0
    · subst he; simp [eraseKV, List.erase_cons_head]
    · have : (k0 == k) = false := by simp; exact fun e => he e.symm
      simp [eraseKV, he, List.erase_cons, this, map_fst_eraseKV rest k]

theorem head?_append_left {α : Type} {l l' : List α} (h : l ≠ []) :
    (l ++ l').head? = l.head? := by
  cases l with
  | nil => exact absurd rfl h
  | cons a t => rfl

theorem head_min {l : List Bytes} {j : Bytes} (hs : l.Pairwise kLT)
    (hh : l.head? = some j) : ∀ x ∈ l, x = j ∨ kLT j x := by
  cases l with
  | nil => simp at hh
  | cons a t =>
    have ha : a = j := by simpa using hh
    subst ha
    intro x hx
    rcases List.mem_cons.mp hx with rfl | hx
    · exact .inl rfl
    · exact .inr ((List.pairwise_cons.mp hs).1 x hx)

theorem nodeKeys_eq_map_fst : ∀ n : Node, nodeKeys n = (leafAssoc n).map Prod.fst
  | .node d lOpt rOpt => by
    unfold nodeKeys leafAssoc
    by_cases h : d.subtreeHeight = 0
    · simp [h]
    · rw [if_neg h, if_neg h]
      have hl : (match lOpt with | some x => nodeKeys x | none => []) =
          (match lOpt with | some x => leafAssoc x | none => []).map Prod.fst := by
        cases lOpt with
        | none => rfl
        | some x => exact nodeKeys_eq_map_fst x
      have hr : (match rOpt with | some x => nodeKeys x | none => []) =
          (match rOpt with | some x => leafAssoc x | none => []).map Prod.fst := by
        cases rOpt with
        | none => rfl
        | some x => exact nodeKeys_eq_map_fst x
      rw [hl, hr, List.map_append]

/-! ### Structural lemmas about well-formed working subtrees -/

theorem wfv_leaf {v : Int} {d : NodeData} {lOpt rOpt : Option Node}
    (h0 : d.subtreeHeight = 0) :
    WFv v (.node d lOpt rOpt) ↔
    d.nodeKey.version = v ∧ d.dirty = true ∧ lOpt = none ∧ rOpt = none ∧
    d.size = 1 ∧ d.value = none ∧ ∃ val, d.hash = some (.leafH v d.key val) := by
  cases lOpt <;> cases rOpt <;> (rw [WFv]; simp [h0]) <;> tauto

theorem wfv_inner_ss {v : Int} {d : NodeData} {l r : Node}
    (h0 : d.subtreeHeight ≠ 0) :
    WFv v (.node d (some l) (some r)) ↔
    d.nodeKey.version = v ∧ d.dirty = true ∧ WFv v l ∧ WFv v r ∧ d.hash = none ∧
    (∀ x ∈ nodeKeys l, kLT x d.key) ∧ (nodeKeys r).head? = some d.key ∧
    d.subtreeHeight = 1 + max l.subtreeHeight r.subtreeHeight ∧
    d.size = l.size + r.size := by
  rw [WFv]; simp [h0]

theorem wfv_inner_children {v : Int} {d : NodeData} {lOpt rOpt : Option Node}
    (h0 : d.subtreeHeight ≠ 0) (h : WFv v (.node d lOpt rOpt)) :
    ∃ l r, lOpt = some l ∧ rOpt = some r := by
  cases lOpt with
  | none => simp [WFv, h0] at h
  | some l =>
    cases rOpt with
    | none => simp [WFv, h0] at h
    | some r => exact ⟨l, r, rfl, rfl⟩

theorem wfv_keys_ne_nil : ∀ {n : Node}, ∀ {v : Int}, WFv v n → nodeKeys n ≠ []
  | .node d lOpt rOpt, v, h => by
    by_cases h0 : d.subtreeHeight = 0
    · unfold nodeKeys; simp [h0]
    · obtain ⟨l, r, rfl, rfl⟩ := wfv_inner_children h0 h
      have hw := (wfv_inner_ss h0).mp h
      unfold nodeKeys
      rw [if_neg h0]
      intro he
      exact wfv_keys_ne_nil hw.2.2.1 (List.append_eq_nil.mp he).1

theorem wfv_height_nonneg : ∀ {n : Node}, ∀ {v : Int}, WFv v n →
    0 ≤ n.subtreeHeight
  | .node d lOpt rOpt, v, h => by
    by_cases h0 : d.subtreeHeight = 0
    · simp [Node.subtreeHeight, Node.data, h0]
    · obtain ⟨l, r, rfl, rfl⟩ := wfv_inner_children h0 h
      have hw := (wfv_inner_ss h0).mp h
      have hl := wfv_height_nonneg hw.2.2.1
      have hh := hw.2.2.2.2.2.2.2.1
      show 0 ≤ d.subtreeHeight
      rw [hh]
      have : (0:Int) ≤ max l.subtreeHeight r.subtreeHeight :=
        le_trans hl (le_max_left _ _)
      omega

theorem wfv_sorted : ∀ {n : Node}, ∀ {v : Int}, WFv v n →
    (nodeKeys n).Pairwise kLT
  | .node d lOpt rOpt, v, h => by
    by_cases h0 : d.subtreeHeight = 0
    · unfold nodeKeys; simp [h0]
    · obtain ⟨l, r, rfl, rfl⟩ := wfv_inner_children h0 h
      have hw := (wfv_inner_ss h0).mp h
      have hsl := wfv_sorted hw.2.2.1
      have hsr := wfv_sorted hw.2.2.2.1
      have hlk := hw.2.2.2.2.2.1
      have hrk := hw.2.2.2.2.2.2.1
      unfold nodeKeys
      rw [if_neg h0]
      rw [List.pairwise_append]
      refine ⟨hsl, hsr, ?_⟩
      intro a ha b hb
      have hb' := head_min hsr hrk b hb
      exact kLT_of_lt_of_le (hlk a ha) (by rcases hb' with rfl | hb'
                                           · exact .inl rfl
                                           · exact .inr hb')

theorem wfv_right_keys_ge {v : Int} {d : NodeData} {l r : Node}
    (h0 : d.subtreeHeight ≠ 0) (h : WFv v (.node d (some l) (some r))) :
    ∀ x ∈ nodeKeys r, x = d.key ∨ kLT d.key x := by
  have hw := (wfv_inner_ss h0).mp h
  exact head_min (wfv_sorted hw.2.2.2.1) hw.2.2.2.2.2.2.1

theorem wfv_inner_parts {v : Int} {n : Node} (h : WFv v n)
    (h0 : n.subtreeHeight ≠ 0) :
    ∃ d l r, n = .node d (some l) (some r) ∧ InnerParts v d l r ∧
    d.subtreeHeight = 1 + max l.subtreeHeight r.subtreeHeight ∧
    d.size = l.size + r.size := by
  obtain ⟨d, lOpt, rOpt⟩ := n
  have h0' : d.subtreeHeight ≠ 0 := h0
  obtain ⟨l, r, rfl, rfl⟩ := wfv_inner_children h0' h
  have hw := (wfv_inner_ss h0').mp h
  exact ⟨d, l, r, rfl,
    ⟨hw.1, hw.2.1, hw.2.2.2.2.1, h0', hw.2.2.1, hw.2.2.2.1,
     hw.2.2.2.2.2.1, hw.2.2.2.2.2.2.1⟩,
    hw.2.2.2.2.2.2.2.1, hw.2.2.2.2.2.2.2.2⟩

theorem wfv_of_innerparts {v : Int} {d : NodeData} {l r : Node}
    (hp : InnerParts v d l r)
    (hh : d.subtreeHeight = 1 + max l.subtreeHeight r.subtreeHeight)
    (hs : d.size = l.size + r.size) :
    WFv v (.node d (some l) (some r)) := by
  have h0 : d.subtreeHeight ≠ 0 := hp.2.2.2.1
  exact (wfv_inner_ss h0).mpr
    ⟨hp.1, hp.2.1, hp.2.2.2.2.1, hp.2.2.2.2.2.1, hp.2.2.1,
     hp.2.2.2.2.2.2.1, hp.2.2.2.2.2.2.2, hh, hs⟩


/-! ### Reduction and preservation lemmas for rotations and balancing -/

theorem nodeCount_ss (d : NodeData) (l r : Node) :
    nodeCount (.node d (some l) (some r)) = 1 + nodeCount l + nodeCount r := by
  rw [nodeCount]

theorem leafAssoc_ss (d : NodeData) (l r : Node) (h0 : d.subtreeHeight ≠ 0) :
    leafAssoc (.node d (some l) (some r)) = leafAssoc l ++ leafAssoc r := by
  simp only [leafAssoc]
  rw [if_neg h0]

theorem nodeKeys_ss (d : NodeData) (l r : Node) (h0 : d.subtreeHeight ≠ 0) :
    nodeKeys (.node d (some l) (some r)) = nodeKeys l ++ nodeKeys r := by
  simp only [nodeKeys]
  rw [if_neg h0]

theorem leafAssoc_leaf (d : NodeData) (h0 : d.subtreeHeight = 0)
    (lOpt rOpt : Option Node) :
    leafAssoc (.node d lOpt rOpt) = [(d.key, leafPayload d)] := by
  cases lOpt <;> cases rOpt <;> (simp only [leafAssoc]; rw [if_pos h0])

theorem nodeKeys_leaf (d : NodeData) (h0 : d.subtreeHeight = 0)
    (lOpt rOpt : Option Node) :
    nodeKeys (.node d lOpt rOpt) = [d.key] := by
  cases lOpt <;> cases rOpt <;> (simp only [nodeKeys]; rw [if_pos h0])

theorem rotateRight_eq (t : Tree) (d ld : NodeData) (ll lr r : Node)
    (hd : d.hash = none) (hld : ld.hash = none) :
    t.rotateRight (.node d (some (.node ld (some ll) (some lr))) (some r)) =
    .ok (.node
      { ld with
        rightNodeKey := d.nodeKey,
        subtreeHeight := 1 + max ll.subtreeHeight
          (1 + max lr.subtreeHeight r.subtreeHeight),
        size := ll.size + (lr.size + r.size) }
      (some ll)
      (some (.node
        { d with
          leftNodeKey := lr.nodeKey,
          subtreeHeight := 1 + max lr.subtreeHeight r.subtreeHeight,
          size := lr.size + r.size }
        (some lr) (some r))), t) := by
  simp [Tree.rotateRight, Node.left, Node.right, Tree.addOrphan, Tree.mutateNode,
    hd, hld, Node.setLeft, Node.setRight, Node.calcHeightAndSize, Node.nodeKey,
    Bind.bind, Except.bind, Pure.pure, Except.pure]



theorem head?_mem {α : Type} {l : List α} {j : α} (h : l.head? = some j) : j ∈ l := by
  cases l with
  | nil => simp at h
  | cons a t => simp at h; simp [h]

theorem rotateLeft_eq (t : Tree) (d rd : NodeData) (l rl rr : Node)
    (hd : d.hash = none) (hrd : rd.hash = none) :
    t.rotateLeft (.node d (some l) (some (.node rd (some rl) (some rr)))) =
    .ok (.node
      { rd with
        leftNodeKey := d.nodeKey,
        subtreeHeight := 1 + max (1 + max l.subtreeHeight rl.subtreeHeight)
          rr.subtreeHeight,
        size := l.size + rl.size + rr.size }
      (some (.node
        { d with
          rightNodeKey := rl.nodeKey,
          subtreeHeight := 1 + max l.subtreeHeight rl.subtreeHeight,
          size := l.size + rl.size }
        (some l) (some rl)))
      (some rr), t) := by
  simp [Tree.rotateLeft, Node.left, Node.right, Tree.addOrphan, Tree.mutateNode,
    hd, hrd, Node.setLeft, Node.setRight, Node.calcHeightAndSize, Node.nodeKey,
    Bind.bind, Except.bind, Pure.pure, Except.pure]



theorem one_add_max_ne_zero {a b : Int} (ha : 0 ≤ a) : 1 + max a b ≠ 0 := by
  have h := le_max_left a b
  omega

theorem rotateRight_spec (t : Tree) {v : Int} {d ld : NodeData} {ll lr r : Node}
    (hp : InnerParts v d (.node ld (some ll) (some lr)) r)
    (hpl : InnerParts v ld ll lr) :
    ∃ n', t.rotateRight (.node d (some (.node ld (some ll) (some lr))) (some r)) =
      .ok (n', t) ∧ WFv v n' ∧ n'.subtreeHeight ≠ 0 ∧
      leafAssoc n' = leafAssoc (.node d (some (.node ld (some ll) (some lr))) (some r)) ∧
      nodeCount n' = nodeCount (.node d (some (.node ld (some ll) (some lr))) (some r)) := by
  obtain ⟨hv, hdirty, hhash, hne0, hwl, hwr, hkl, hkr⟩ := hp
  obtain ⟨hv1, hdirty1, hhash1, hne01, hwll, hwlr, hkll, hklr⟩ := hpl
  have hnnll : 0 ≤ ll.subtreeHeight := wfv_height_nonneg hwll
  have hnnlr : 0 ≤ lr.subtreeHeight := wfv_height_nonneg hwlr
  have hnnr : 0 ≤ r.subtreeHeight := wfv_height_nonneg hwr
  refine ⟨_, rotateRight_eq t d ld ll lr r hhash hhash1, ?_, ?_, ?_, ?_⟩
  · -- WFv of the rotated node
    have hZ : WFv v (.node
        { d with
          leftNodeKey := lr.nodeKey,
          subtreeHeight := 1 + max lr.subtreeHeight r.subtreeHeight,
          size := lr.size + r.size } (some lr) (some r)) := by
      apply wfv_of_innerparts
      · refine ⟨hv, hdirty, hhash, by simp; exact one_add_max_ne_zero hnnlr, hwlr, hwr, ?_, hkr⟩
        intro x hx
        apply hkl
        rw [nodeKeys_ss _ _ _ hne01]
        exact List.mem_append_right _ hx
      · simp
      · simp
    apply wfv_of_innerparts
    · refine ⟨hv1, hdirty1, hhash1, by simp; exact one_add_max_ne_zero hnnll, hwll, hZ, hkll, ?_⟩
      rw [nodeKeys_ss _ _ _ (by simp; exact one_add_max_ne_zero hnnlr)]
      rw [head?_append_left (wfv_keys_ne_nil hwlr)]
      exact hklr
    · simp
    · simp
  · simp; exact one_add_max_ne_zero hnnll
  · rw [leafAssoc_ss _ _ _ (by simp; exact one_add_max_ne_zero hnnll),
      leafAssoc_ss _ _ _ (by simp; exact one_add_max_ne_zero hnnlr),
      leafAssoc_ss _ _ _ hne0, leafAssoc_ss _ _ _ hne01, List.append_assoc]
  · rw [nodeCount_ss, nodeCount_ss, nodeCount_ss, nodeCount_ss]
    omega



theorem one_add_max_nonneg {a b : Int} (ha : 0 ≤ a) : 0 ≤ 1 + max a b := by
  have h := le_max_left a b
  omega

theorem rotateLeft_spec (t : Tree) {v : Int} {d rd : NodeData} {l rl rr : Node}
    (hp : InnerParts v d l (.node rd (some rl) (some rr)))
    (hpr : InnerParts v rd rl rr) :
    ∃ n', t.rotateLeft (.node d (some l) (some (.node rd (some rl) (some rr)))) =
      .ok (n', t) ∧ WFv v n' ∧ n'.subtreeHeight ≠ 0 ∧
      leafAssoc n' = leafAssoc (.node d (some l) (some (.node rd (some rl) (some rr)))) ∧
      nodeCount n' = nodeCount (.node d (some l) (some (.node rd (some rl) (some rr)))) := by
  obtain ⟨hv, hdirty, hhash, hne0, hwl, hwr, hkl, hkr⟩ := hp
  obtain ⟨hv1, hdirty1, hhash1, hne01, hwrl, hwrr, hkrl, hkrr⟩ := hpr
  have hnnl : 0 ≤ l.subtreeHeight := wfv_height_nonneg hwl
  have hnnrl : 0 ≤ rl.subtreeHeight := wfv_height_nonneg hwrl
  have hnnrr : 0 ≤ rr.subtreeHeight := wfv_height_nonneg hwrr
  have hkeysR : nodeKeys (Node.node rd (some rl) (some rr)) =
      nodeKeys rl ++ nodeKeys rr := nodeKeys_ss _ rl rr hne01
  have hrlne : nodeKeys rl ≠ [] := wfv_keys_ne_nil hwrl
  have hkrl_head : (nodeKeys rl).head? = some d.key := by
    rw [hkeysR, head?_append_left hrlne] at hkr; exact hkr
  have hsortedR : (nodeKeys (Node.node rd (some rl) (some rr))).Pairwise kLT :=
    wfv_sorted hwr
  have hrdmem : rd.key ∈ nodeKeys (Node.node rd (some rl) (some rr)) := by
    rw [hkeysR]; exact List.mem_append_right _ (head?_mem hkrr)
  have hdk_rdk : rd.key = d.key ∨ kLT d.key rd.key := head_min hsortedR hkr rd.key hrdmem
  refine ⟨_, rotateLeft_eq t d rd l rl rr hhash hhash1, ?_, ?_, ?_, ?_⟩
  · have hZ : WFv v (.node
        { d with
          rightNodeKey := rl.nodeKey,
          subtreeHeight := 1 + max l.subtreeHeight rl.subtreeHeight,
          size := l.size + rl.size } (some l) (some rl)) := by
      apply wfv_of_innerparts
      · exact ⟨hv, hdirty, hhash, by simp; exact one_add_max_ne_zero hnnl,
          hwl, hwrl, hkl, hkrl_head⟩
      · simp
      · simp
    apply wfv_of_innerparts
    · refine ⟨hv1, hdirty1, hhash1,
        by simp; exact one_add_max_ne_zero (one_add_max_nonneg hnnl), hZ, hwrr, ?_, hkrr⟩
      rw [nodeKeys_ss _ _ _ (by simp; exact one_add_max_ne_zero hnnl)]
      intro x hx
      rcases List.mem_append.mp hx with hxl | hxrl
      · refine kLT_of_lt_of_le (hkl x hxl) ?_
        rcases hdk_rdk with he | hlt
        · exact .inl he.symm
        · exact .inr hlt
      · exact hkrl x hxrl
    · simp
    · simp
  · simp; exact one_add_max_ne_zero (one_add_max_nonneg hnnl)
  · rw [leafAssoc_ss _ _ _ (by simp; exact one_add_max_ne_zero (one_add_max_nonneg hnnl)),
      leafAssoc_ss _ _ _ (by simp; exact one_add_max_ne_zero hnnl),
      leafAssoc_ss _ _ _ hne0, leafAssoc_ss _ _ _ hne01, List.append_assoc]
  · rw [nodeCount_ss, nodeCount_ss, nodeCount_ss, nodeCount_ss]
    omega



theorem balance_spec (t : Tree) {v : Int} {d : NodeData} {l r : Node}
    (hw : WFv v (.node d (some l) (some r))) :
    ∃ n', t.balance (.node d (some l) (some r)) = .ok (n', t) ∧ WFv v n' ∧
      n'.subtreeHeight ≠ 0 ∧
      leafAssoc n' = leafAssoc (.node d (some l) (some r)) ∧
      nodeCount n' = nodeCount (.node d (some l) (some r)) := by
  have hne0 : d.subtreeHeight ≠ 0 := by
    intro h0
    have := (wfv_leaf h0).mp hw
    exact Option.noConfusion this.2.2.1
  obtain ⟨hv, hdirty, hwl, hwr, hhash, hkl, hkr, hh, hs⟩ := (wfv_inner_ss hne0).mp hw
  have hnnl := wfv_height_nonneg hwl
  have hnnr := wfv_height_nonneg hwr
  by_cases hbf : l.subtreeHeight - r.subtreeHeight > 1
  · -- left heavy: the left child is an inner node
    have hlne : l.subtreeHeight ≠ 0 := by omega
    obtain ⟨ld, ll, lr, rfl, hpl, hlh, hls⟩ := wfv_inner_parts hwl hlne
    have hpd : InnerParts v d (.node ld (some ll) (some lr)) r :=
      ⟨hv, hdirty, hhash, hne0, hwl, hwr, hkl, hkr⟩
    simp only [subtreeHeight_node] at hbf
    by_cases hlbf : ll.subtreeHeight - lr.subtreeHeight ≥ 0
    · -- single right rotation
      obtain ⟨n', heq, hwf', hne', hassoc, hcount⟩ := rotateRight_spec t hpd hpl
      refine ⟨n', ?_, hwf', hne', hassoc, hcount⟩
      unfold Tree.balance
      simp only [Node.balanceFactor, leftNode_node, rightNode_node,
        subtreeHeight_node, Bind.bind, Except.bind, left_node_some, right_node_some]
      rw [if_pos hbf, if_pos hlbf]
      exact heq
    · -- double rotation: left-rotate the left child first
      obtain ⟨hv1, hdirty1, hhash1, hne01, hwll, hwlr, hkll, hklr⟩ := hpl
      have hnnll := wfv_height_nonneg hwll
      have hlrne : lr.subtreeHeight ≠ 0 := by omega
      obtain ⟨lrd, lrl, lrr, rfl, hplr, _, _⟩ := wfv_inner_parts hwlr hlrne
      simp only [subtreeHeight_node] at hlbf
      have hpl' : InnerParts v ld ll (.node lrd (some lrl) (some lrr)) :=
        ⟨hv1, hdirty1, hhash1, hne01, hwll, hwlr, hkll, hklr⟩
      obtain ⟨l1, heq1, hwfl1, hnel1, hassoc1, hcount1⟩ := rotateLeft_spec t hpl' hplr
      -- the rotated left child is itself a well-formed inner node
      obtain ⟨l1d, a1, b1, hl1eq, hp1, hl1h, hl1s⟩ := wfv_inner_parts hwfl1 hnel1
      have hkeys1 : nodeKeys l1 = nodeKeys (.node ld (some ll) (some (.node lrd (some lrl) (some lrr)))) := by
        rw [nodeKeys_eq_map_fst, nodeKeys_eq_map_fst, hassoc1]
      have hpd1 : InnerParts v { d with leftNodeKey := l1.nodeKey } l1 r := by
        refine ⟨hv, hdirty, hhash, hne0, hwfl1, hwr, ?_, hkr⟩
        intro x hx
        rw [hkeys1] at hx
        exact hkl x hx
      rw [hl1eq] at hpd1
      obtain ⟨n', heq2, hwf', hne', hassoc2, hcount2⟩ := rotateRight_spec t hpd1 hp1
      refine ⟨n', ?_, hwf', hne', ?_, ?_⟩
      · unfold Tree.balance
        simp only [Node.balanceFactor, leftNode_node, rightNode_node,
          subtreeHeight_node, Bind.bind, Except.bind, left_node_some, right_node_some]
        rw [if_pos hbf, if_neg hlbf, heq1]
        simp only [Except.bind, setLeft_node]
        rw [hl1eq]
        exact heq2
      · rw [hassoc2,
          leafAssoc_ss { d with leftNodeKey := (Node.node l1d (some a1) (some b1)).nodeKey }
            (Node.node l1d (some a1) (some b1)) r hne0,
          ← hl1eq, hassoc1,
          leafAssoc_ss d (Node.node ld (some ll) (some (Node.node lrd (some lrl) (some lrr)))) r hne0]
      · rw [hcount2,
          nodeCount_ss { d with leftNodeKey := (Node.node l1d (some a1) (some b1)).nodeKey }
            (Node.node l1d (some a1) (some b1)) r,
          ← hl1eq, hcount1,
          nodeCount_ss d (Node.node ld (some ll) (some (Node.node lrd (some lrl) (some lrr)))) r]
  · by_cases hbf2 : l.subtreeHeight - r.subtreeHeight < -1
    · -- right heavy: the right child is an inner node
      have hrne : r.subtreeHeight ≠ 0 := by omega
      obtain ⟨rd, rl, rr, rfl, hpr, hrh, hrs⟩ := wfv_inner_parts hwr hrne
      have hpd : InnerParts v d l (.node rd (some rl) (some rr)) :=
        ⟨hv, hdirty, hhash, hne0, hwl, hwr, hkl, hkr⟩
      simp only [subtreeHeight_node] at hbf hbf2
      by_cases hrbf : rl.subtreeHeight - rr.subtreeHeight ≤ 0
      · obtain ⟨n', heq, hwf', hne', hassoc, hcount⟩ := rotateLeft_spec t hpd hpr
        refine ⟨n', ?_, hwf', hne', hassoc, hcount⟩
        unfold Tree.balance
        simp only [Node.balanceFactor, leftNode_node, rightNode_node,
          subtreeHeight_node, Bind.bind, Except.bind, left_node_some, right_node_some]
        rw [if_neg hbf, if_pos hbf2, if_pos hrbf]
        exact heq
      · obtain ⟨hv1, hdirty1, hhash1, hne01, hwrl, hwrr, hkrl, hkrr⟩ := hpr
        have hnnrr := wfv_height_nonneg hwrr
        have hrlne : rl.subtreeHeight ≠ 0 := by omega
        obtain ⟨rld, rla, rlb, rfl, hprl, _, _⟩ := wfv_inner_parts hwrl hrlne
        simp only [subtreeHeight_node] at hrbf
        have hpr' : InnerParts v rd (.node rld (some rla) (some rlb)) rr :=
          ⟨hv1, hdirty1, hhash1, hne01, hwrl, hwrr, hkrl, hkrr⟩
        obtain ⟨r1, heq1, hwfr1, hner1, hassoc1, hcount1⟩ := rotateRight_spec t hpr' hprl
        obtain ⟨r1d, a1, b1, hr1eq, hp1, hr1h, hr1s⟩ := wfv_inner_parts hwfr1 hner1
        have hkeys1 : nodeKeys r1 = nodeKeys (.node rd (some (.node rld (some rla) (some rlb))) (some rr)) := by
          rw [nodeKeys_eq_map_fst, nodeKeys_eq_map_fst, hassoc1]
        have hheadr1 : (nodeKeys r1).head? = some d.key := by
          rw [hkeys1]
          exact hkr
        have hpd1 : InnerParts v { d with rightNodeKey := r1.nodeKey } l r1 :=
          ⟨hv, hdirty, hhash, hne0, hwl, hwfr1, hkl, hheadr1⟩
        rw [hr1eq] at hpd1
        obtain ⟨n', heq2, hwf', hne', hassoc2, hcount2⟩ := rotateLeft_spec t hpd1 hp1
        refine ⟨n', ?_, hwf', hne', ?_, ?_⟩
        · unfold Tree.balance
          simp only [Node.balanceFactor, leftNode_node, rightNode_node,
            subtreeHeight_node, Bind.bind, Except.bind, left_node_some, right_node_some]
          rw [if_neg hbf, if_pos hbf2, if_neg hrbf, heq1]
          simp only [Except.bind, setRight_node]
          rw [hr1eq]
          exact heq2
        · rw [hassoc2,
            leafAssoc_ss { d with rightNodeKey := (Node.node r1d (some a1) (some b1)).nodeKey } l
              (Node.node r1d (some a1) (some b1)) hne0,
            ← hr1eq, hassoc1,
            leafAssoc_ss d l (Node.node rd (some (Node.node rld (some rla) (some rlb))) (some rr)) hne0]
        · rw [hcount2,
            nodeCount_ss { d with rightNodeKey := (Node.node r1d (some a1) (some b1)).nodeKey } l
              (Node.node r1d (some a1) (some b1)),
            ← hr1eq, hcount1,
            nodeCount_ss d l (Node.node rd (some (Node.node rld (some rla) (some rlb))) (some rr))]
    · -- already balanced: no rotation
      refine ⟨.node d (some l) (some r), ?_, hw, hne0, rfl, rfl⟩
      unfold Tree.balance
      simp only [Node.balanceFactor, leftNode_node, rightNode_node,
        subtreeHeight_node, Bind.bind, Except.bind, left_node_some, right_node_some]
      rw [if_neg hbf, if_neg hbf2]
      rfl
end Iavl


namespace Iavl

theorem nodeCount_pos : ∀ n : Node, 1 ≤ nodeCount n
  | .node d l r => by cases l <;> cases r <;> (simp only [nodeCount]; omega)

theorem wfv_set_sortKey {v : Int} {d : NodeData} {lO rO : Option Node} (sk : Bytes)
    (h : WFv v (.node d lO rO)) : WFv v (.node { d with sortKey := sk } lO rO) := by
  by_cases h0 : d.subtreeHeight = 0
  · exact (wfv_leaf (show ({ d with sortKey := sk } : NodeData).subtreeHeight = 0 from h0)).mpr
      ((wfv_leaf h0).mp h)
  · obtain ⟨l, r, rfl, rfl⟩ := wfv_inner_children h0 h
    exact (wfv_inner_ss (show ({ d with sortKey := sk } : NodeData).subtreeHeight ≠ 0 from h0)).mpr
      ((wfv_inner_ss h0).mp h)

end Iavl

namespace Iavl

set_option maxHeartbeats 1000000

theorem calc_balance_spec (t : Tree) {v : Int} (d3 : NodeData) (child r : Node)
    (hv : d3.nodeKey.version = v) (hdirty : d3.dirty = true) (hhash : d3.hash = none)
    (hwc : WFv v child) (hwr : WFv v r)
    (hkc : ∀ x ∈ nodeKeys child, kLT x d3.key)
    (hkr : (nodeKeys r).head? = some d3.key) :
    (Node.node d3 (some child) (some r)).calcHeightAndSize = .ok
      (Node.node
        { d3 with
          subtreeHeight := 1 + max child.subtreeHeight r.subtreeHeight,
          size := child.size + r.size } (some child) (some r)) ∧
    ∃ n', t.balance (Node.node
        { d3 with
          subtreeHeight := 1 + max child.subtreeHeight r.subtreeHeight,
          size := child.size + r.size } (some child) (some r)) = .ok (n', t) ∧
      WFv v n' ∧ n'.subtreeHeight ≠ 0 ∧
      leafAssoc n' = leafAssoc child ++ leafAssoc r ∧
      nodeCount n' = 1 + nodeCount child + nodeCount r := by
  have hnnc := wfv_height_nonneg hwc
  have hwn4 : WFv v (Node.node
      { d3 with
        subtreeHeight := 1 + max child.subtreeHeight r.subtreeHeight,
        size := child.size + r.size } (some child) (some r)) := by
    apply wfv_of_innerparts
    · exact ⟨hv, hdirty, hhash, by simp; exact one_add_max_ne_zero hnnc, hwc, hwr, hkc, hkr⟩
    · simp
    · simp
  refine ⟨rfl, ?_⟩
  obtain ⟨n', heq, hwf, hne, hassoc, hcount⟩ := balance_spec t hwn4
  refine ⟨n', heq, hwf, hne, ?_, ?_⟩
  · rw [hassoc, leafAssoc_ss _ _ _ (by simp; exact one_add_max_ne_zero hnnc)]
  · rw [hcount, nodeCount_ss]

theorem recursiveSet_spec : ∀ (fuel : Nat) (t : Tree) (n : Node) (k val : Bytes),
    nodeCount n ≤ fuel → WFv (t.version + 1) n →
    ∃ n' upd t', t.recursiveSet n k val = .ok (n', upd, t') ∧
      WFv (t.version + 1) n' ∧
      (upd = true ↔ k ∈ nodeKeys n) ∧
      (upd = true → n'.subtreeHeight = n.subtreeHeight ∧ n'.size = n.size) ∧
      leafAssoc n' = insertKV (leafAssoc n) k val ∧
      t'.version = t.version ∧ t'.lastCheckpoint = t.lastCheckpoint ∧
      t'.root = t.root ∧ t'.leaves = t.leaves ∧ t'.branches = t.branches ∧
      t'.workingSize = t.workingSize + (if k ∈ nodeKeys n then 0 else 2) ∧
      nodeCount n' = nodeCount n + (if k ∈ nodeKeys n then 0 else 2) := by
  intro fuel
  induction fuel with
  | zero =>
    intro t n k val hf hw
    have := nodeCount_pos n
    omega
  | succ fuel ih =>
    intro t n k val hf hw
    obtain ⟨d, lOpt, rOpt⟩ := n
    by_cases h0 : d.subtreeHeight = 0
    · obtain ⟨hv, hdirty, rfl, rfl, hsize, hvalue, hval, hhash⟩ := (wfv_leaf h0).mp hw
      cases hc : bcmp k d.key with
      | lt =>
        have hkne : k ∉ nodeKeys (Node.node d none none) := by
          rw [nodeKeys_leaf _ h0]
          simp
          exact kLT_ne hc
        refine ⟨Node.node
            { nodeKey := ⟨t.version + 1, t.sequenceCtr + 1⟩, key := d.key,
              sortKey := MinRightToken k d.key, value := none, subtreeHeight := 1,
              size := 2, hash := none, dirty := true,
              leftNodeKey := ⟨t.version + 1, t.sequenceCtr + 2⟩,
              rightNodeKey := d.nodeKey, poolId := 0 }
            (some (Node.node
              { nodeKey := ⟨t.version + 1, t.sequenceCtr + 2⟩, key := k, sortKey := k,
                value := none, subtreeHeight := 0, size := 1,
                hash := some (.leafH (t.version + 1) k val), dirty := true,
                leftNodeKey := emptyNodeKey, rightNodeKey := emptyNodeKey,
                poolId := 0 } none none))
            (some (Node.node d none none)),
          false,
          { t with
            sequenceCtr := t.sequenceCtr + 2,
            workingBytes := t.workingBytes + (48 + k.length) + (48 + d.key.length),
            workingSize := t.workingSize + 1 + 1 },
          ?_, ?_, ?_, ?_, ?_, rfl, rfl, rfl, rfl, rfl, ?_, ?_⟩
        · unfold Tree.recursiveSet
          rw [if_pos h0, hc]
          rfl
        · apply wfv_of_innerparts
          · refine ⟨rfl, rfl, rfl, by simp, ?_, ?_, ?_, ?_⟩
            · rw [wfv_leaf rfl]
              exact ⟨rfl, rfl, rfl, rfl, rfl, rfl, val, rfl⟩
            · exact (wfv_leaf h0).mpr ⟨hv, hdirty, rfl, rfl, hsize, hvalue, hval, hhash⟩
            · intro x hx
              rw [nodeKeys_leaf _ rfl] at hx
              simp at hx
              subst hx
              exact hc
            · rw [nodeKeys_leaf _ h0]
              rfl
          · simp [h0]
          · simp [hsize]
        · simp [hkne]
        · simp
        · rw [leafAssoc_ss _ _ _ (by simp), leafAssoc_leaf _ rfl, leafAssoc_leaf _ h0]
          unfold insertKV
          rw [hc]
          simp [leafPayload]
        · rw [if_neg hkne]
          simp
          omega
        · rw [if_neg hkne, nodeCount_ss]
          simp only [nodeCount]
      | eq =>
        have hke : k = d.key := bcmp_eq_then hc
        subst hke
        have hkm : d.key ∈ nodeKeys (Node.node d none none) := by
          rw [nodeKeys_leaf _ h0]; simp
        refine ⟨Node.node
            { d with
              nodeKey := ⟨t.version + 1, t.sequenceCtr + 1⟩,
              hash := some (.leafH (t.version + 1) d.key val),
              value := none }
            none none,
          true,
          { t with sequenceCtr := t.sequenceCtr + 1 },
          ?_, ?_, ?_, ?_, ?_, rfl, rfl, rfl, rfl, rfl, ?_, ?_⟩
        · unfold Tree.recursiveSet
          rw [if_pos h0, hc]
          simp [Tree.mutateNode, hhash, Tree.nextNodeKey, hdirty]
        · refine (wfv_leaf ?_).mpr ⟨rfl, hdirty, rfl, rfl, hsize, rfl, val, rfl⟩
          exact h0
        · simp [hkm]
        · intro _
          exact ⟨rfl, rfl⟩
        · rw [leafAssoc_leaf
            { d with
              nodeKey := ⟨t.version + 1, t.sequenceCtr + 1⟩,
              hash := some (.leafH (t.version + 1) d.key val),
              value := none } h0 none none, leafAssoc_leaf _ h0]
          unfold insertKV
          rw [bcmp_refl]
          simp [leafPayload]
        · rw [if_pos hkm]
          simp
        · rw [if_pos hkm]
          simp only [nodeCount]
      | gt =>
        have hdk : kLT d.key k := bcmp_gt_then hc
        have hkne : k ∉ nodeKeys (Node.node d none none) := by
          rw [nodeKeys_leaf _ h0]
          simp
          exact (kLT_ne hdk).symm
        refine ⟨Node.node
            { nodeKey := ⟨t.version + 1, t.sequenceCtr + 1⟩, key := k,
              sortKey := MinRightToken k d.key, value := none, subtreeHeight := 1,
              size := 2, hash := none, dirty := true,
              leftNodeKey := d.nodeKey,
              rightNodeKey := ⟨t.version + 1, t.sequenceCtr + 2⟩, poolId := 0 }
            (some (Node.node d none none))
            (some (Node.node
              { nodeKey := ⟨t.version + 1, t.sequenceCtr + 2⟩, key := k, sortKey := k,
                value := none, subtreeHeight := 0, size := 1,
                hash := some (.leafH (t.version + 1) k val), dirty := true,
                leftNodeKey := emptyNodeKey, rightNodeKey := emptyNodeKey,
                poolId := 0 } none none)),
          false,
          { t with
            sequenceCtr := t.sequenceCtr + 2,
            workingBytes := t.workingBytes + (48 + k.length) + (48 + k.length),
            workingSize := t.workingSize + 1 + 1 },
          ?_, ?_, ?_, ?_, ?_, rfl, rfl, rfl, rfl, rfl, ?_, ?_⟩
        · unfold Tree.recursiveSet
          rw [if_pos h0, hc]
          rfl
        · apply wfv_of_innerparts
          · refine ⟨rfl, rfl, rfl, by simp, ?_, ?_, ?_, ?_⟩
            · exact (wfv_leaf h0).mpr ⟨hv, hdirty, rfl, rfl, hsize, hvalue, hval, hhash⟩
            · rw [wfv_leaf rfl]
              exact ⟨rfl, rfl, rfl, rfl, rfl, rfl, val, rfl⟩
            · intro x hx
              rw [nodeKeys_leaf _ h0] at hx
              simp at hx
              subst hx
              exact hdk
            · rw [nodeKeys_leaf _ rfl]
              rfl
          · simp [h0]
          · simp [hsize]
        · simp [hkne]
        · simp
        · rw [leafAssoc_ss _ _ _ (by simp), leafAssoc_leaf _ h0, leafAssoc_leaf _ rfl]
          unfold insertKV
          rw [hc]
          unfold insertKV
          simp [leafPayload]
        · rw [if_neg hkne]
          simp
          omega
        · rw [if_neg hkne, nodeCount_ss]
          simp only [nodeCount]
    · -- inner node
      obtain ⟨l, r, rfl, rfl⟩ := wfv_inner_children h0 hw
      obtain ⟨hv, hdirty, hwl, hwr, hhash, hkl, hkr, hh, hs⟩ := (wfv_inner_ss h0).mp hw
      rw [nodeCount_ss] at hf
      have hfl : nodeCount l ≤ fuel := by have := nodeCount_pos r; omega
      have hfr : nodeCount r ≤ fuel := by have := nodeCount_pos l; omega
      have hkeysn : nodeKeys (Node.node d (some l) (some r)) = nodeKeys l ++ nodeKeys r :=
        nodeKeys_ss _ _ _ h0
      have hassocn : leafAssoc (Node.node d (some l) (some r)) = leafAssoc l ++ leafAssoc r :=
        leafAssoc_ss _ _ _ h0
      by_cases hc : bcmp k d.key = .lt
      · -- descend into the left child
        have hknr : k ∉ nodeKeys r := by
          intro hm
          rcases wfv_right_keys_ge h0 hw k hm with he | hgt
          · exact kLT_irrefl k (he ▸ hc)
          · exact kLT_asymm hc hgt
        have hmemiff : k ∈ nodeKeys (Node.node d (some l) (some r)) ↔ k ∈ nodeKeys l := by
          rw [hkeysn]; simp [hknr]
        have hkrtail : ∀ kr ∈ (leafAssoc r).map Prod.fst, kLT k kr := by
          intro kr hm
          rw [← nodeKeys_eq_map_fst] at hm
          rcases wfv_right_keys_ge h0 hw kr hm with he | hgt
          · exact he ▸ hc
          · exact kLT_trans hc hgt
        obtain ⟨child, upd, t3, heqc, hwc, hupd, hupdh, hcassoc, hcver, hclc, hcroot,
          hclv, hcbr, hcws, hccount⟩ := ih t l k val hfl hwl
        have hkeysc : nodeKeys child = (insertKV (leafAssoc l) k val).map Prod.fst := by
          rw [nodeKeys_eq_map_fst, hcassoc]
        have hkc : ∀ x ∈ nodeKeys child, kLT x d.key := by
          intro x hx
          rw [hkeysc] at hx
          rcases (mem_map_fst_insertKV _ k val x).mp hx with rfl | hx2
          · exact hc
          · exact hkl x (by rw [nodeKeys_eq_map_fst]; exact hx2)
        by_cases hmem : k ∈ nodeKeys l
        · -- key found below: update in place, no rebalancing
          have hu : upd = true := hupd.mpr hmem
          subst hu
          obtain ⟨hch, hcs⟩ := hupdh rfl
          refine ⟨Node.node { d with leftNodeKey := child.nodeKey } (some child) (some r),
            true, t3, ?_, ?_, ?_, ?_, ?_, hcver, hclc, hcroot, hclv, hcbr, ?_, ?_⟩
          · unfold Tree.recursiveSet
            simp only [hash_node, key_node, sortKey_node, subtreeHeight_node, data_node,
              leftNode_node, rightNode_node, Tree.addOrphan, Tree.mutateNode, hhash, h0,
              hc, heqc, setLeft_node, Node.nodeKey, if_true, if_false]
          · apply wfv_of_innerparts
            · exact ⟨hv, hdirty, hhash, h0, hwc, hwr, hkc, hkr⟩
            · simp [hh, hch]
            · simp [hs, hcs]
          · simp [hmemiff, hmem]
          · intro _
            exact ⟨rfl, rfl⟩
          · rw [leafAssoc_ss { d with leftNodeKey := child.nodeKey } child r h0,
              leafAssoc_ss _ _ _ h0, insertKV_append_left _ _ _ _ hkrtail, hcassoc]
          · rw [hcws, if_pos hmem, if_pos (hmemiff.mpr hmem)]
          · rw [if_pos (hmemiff.mpr hmem), nodeCount_ss, nodeCount_ss, hccount, if_pos hmem]
            omega
        · -- new key below: reattach, recompute height/size, rebalance
          have hu : upd = false := by
            cases upd with
            | false => rfl
            | true => exact absurd (hupd.mp rfl) hmem
          subst hu
          by_cases hsw : startsWith k d.sortKey = true
          · obtain ⟨hcalc, n', heqb, hwf', hne', hassocb, hcountb⟩ :=
              calc_balance_spec t3
                { d with leftNodeKey := child.nodeKey, sortKey := MinRightToken d.key k }
                child r hv hdirty hhash hwc hwr hkc hkr
            refine ⟨n', false, t3, ?_, hwf', ?_, ?_, ?_, hcver, hclc, hcroot, hclv, hcbr, ?_, ?_⟩
            · unfold Tree.recursiveSet
              simp only [Node.nodeKey, hhash] at heqb
              simp only [hash_node, key_node, sortKey_node, subtreeHeight_node, data_node,
                leftNode_node, rightNode_node, Tree.addOrphan, Tree.mutateNode, hhash, h0,
                hc, heqc, setLeft_node, withData_node, Node.nodeKey, hsw,
                Node.calcHeightAndSize, heqb, if_true, if_false, Bool.false_eq_true,
                ite_true, ite_false]
            · simp [hmemiff, hmem]
            · intro hfalse
              exact absurd hfalse (by simp)
            · rw [hassocb, hassocn, insertKV_append_left _ _ _ _ hkrtail, hcassoc]
            · rw [hcws, if_neg hmem, if_neg (fun hm => hmem (hmemiff.mp hm))]
            · rw [hcountb, hccount, if_neg hmem,
                if_neg (fun hm => hmem (hmemiff.mp hm)), nodeCount_ss]
              omega
          · obtain ⟨hcalc, n', heqb, hwf', hne', hassocb, hcountb⟩ :=
              calc_balance_spec t3
                { d with leftNodeKey := child.nodeKey }
                child r hv hdirty hhash hwc hwr hkc hkr
            refine ⟨n', false, t3, ?_, hwf', ?_, ?_, ?_, hcver, hclc, hcroot, hclv, hcbr, ?_, ?_⟩
            · unfold Tree.recursiveSet
              simp only [Node.nodeKey, hhash] at heqb
              simp only [hash_node, key_node, sortKey_node, subtreeHeight_node, data_node,
                leftNode_node, rightNode_node, Tree.addOrphan, Tree.mutateNode, hhash, h0,
                hc, heqc, setLeft_node, withData_node, Node.nodeKey, hsw,
                Node.calcHeightAndSize, heqb, if_true, if_false, Bool.false_eq_true,
                ite_true, ite_false]
            · simp [hmemiff, hmem]
            · intro hfalse
              exact absurd hfalse (by simp)
            · rw [hassocb, hassocn, insertKV_append_left _ _ _ _ hkrtail, hcassoc]
            · rw [hcws, if_neg hmem, if_neg (fun hm => hmem (hmemiff.mp hm))]
            · rw [hcountb, hccount, if_neg hmem,
                if_neg (fun hm => hmem (hmemiff.mp hm)), nodeCount_ss]
              omega
      · -- descend into the right child
        have hknl : k ∉ nodeKeys l := fun hm => hc (hkl k hm)
        have hmemiff : k ∈ nodeKeys (Node.node d (some l) (some r)) ↔ k ∈ nodeKeys r := by
          rw [hkeysn]; simp [hknl]
        have hkltail : ∀ kl ∈ (leafAssoc l).map Prod.fst, kLT kl k := by
          intro kl hm
          rw [← nodeKeys_eq_map_fst] at hm
          rcases ge_of_not_kLT hc with he | hgt
          · exact he ▸ hkl kl hm
          · exact kLT_trans (hkl kl hm) hgt
        obtain ⟨child, upd, t3, heqc, hwc, hupd, hupdh, hcassoc, hcver, hclc, hcroot,
          hclv, hcbr, hcws, hccount⟩ := ih t r k val hfr hwr
        have hner : nodeKeys r ≠ [] := wfv_keys_ne_nil hwr
        have hheadc : (nodeKeys child).head? = some d.key := by
          rw [nodeKeys_eq_map_fst, hcassoc]
          cases har : leafAssoc r with
          | nil =>
            rw [nodeKeys_eq_map_fst, har] at hner
            exact absurd rfl hner
          | cons p rest =>
            obtain ⟨k0, v0⟩ := p
            have hk0 : k0 = d.key := by
              rw [nodeKeys_eq_map_fst, har] at hkr
              simpa using hkr
            subst hk0
            exact head_insertKV_of_not_lt d.key v0 rest k val hc
        by_cases hmem : k ∈ nodeKeys r
        · have hu : upd = true := hupd.mpr hmem
          subst hu
          obtain ⟨hch, hcs⟩ := hupdh rfl
          refine ⟨Node.node { d with rightNodeKey := child.nodeKey } (some l) (some child),
            true, t3, ?_, ?_, ?_, ?_, ?_, hcver, hclc, hcroot, hclv, hcbr, ?_, ?_⟩
          · unfold Tree.recursiveSet
            simp only [hash_node, key_node, sortKey_node, subtreeHeight_node, data_node,
              leftNode_node, rightNode_node, Tree.addOrphan, Tree.mutateNode, hhash, h0,
              hc, heqc, setRight_node, Node.nodeKey, if_true, if_false]
          · apply wfv_of_innerparts
            · exact ⟨hv, hdirty, hhash, h0, hwl, hwc, hkl, hheadc⟩
            · simp [hh, hch]
            · simp [hs, hcs]
          · simp [hmemiff, hmem]
          · intro _
            exact ⟨rfl, rfl⟩
          · rw [leafAssoc_ss { d with rightNodeKey := child.nodeKey } l child h0,
              leafAssoc_ss _ _ _ h0, insertKV_append_right _ _ _ _ hkltail, hcassoc]
          · rw [hcws, if_pos hmem, if_pos (hmemiff.mpr hmem)]
          · rw [if_pos (hmemiff.mpr hmem), nodeCount_ss, nodeCount_ss, hccount, if_pos hmem]
            omega
        · have hu : upd = false := by
            cases upd with
            | false => rfl
            | true => exact absurd (hupd.mp rfl) hmem
          subst hu
          by_cases hsw : startsWith k d.sortKey = true
          · obtain ⟨hcalc, n', heqb, hwf', hne', hassocb, hcountb⟩ :=
              calc_balance_spec t3
                { d with rightNodeKey := child.nodeKey, sortKey := MinLeftToken d.key k }
                l child hv hdirty hhash hwl hwc hkl hheadc
            refine ⟨n', false, t3, ?_, hwf', ?_, ?_, ?_, hcver, hclc, hcroot, hclv, hcbr, ?_, ?_⟩
            · unfold Tree.recursiveSet
              simp only [Node.nodeKey, hhash] at heqb
              simp only [hash_node, key_node, sortKey_node, subtreeHeight_node, data_node,
                leftNode_node, rightNode_node, Tree.addOrphan, Tree.mutateNode, hhash, h0,
                hc, heqc, setRight_node, withData_node, Node.nodeKey, hsw,
                Node.calcHeightAndSize, heqb, if_true, if_false, Bool.false_eq_true,
                ite_true, ite_false]
            · simp [hmemiff, hmem]
            · intro hfalse
              exact absurd hfalse (by simp)
            · rw [hassocb, hassocn, insertKV_append_right _ _ _ _ hkltail, hcassoc]
            · rw [hcws, if_neg hmem, if_neg (fun hm => hmem (hmemiff.mp hm))]
            · rw [hcountb, hccount, if_neg hmem,
                if_neg (fun hm => hmem (hmemiff.mp hm)), nodeCount_ss]
              omega
          · obtain ⟨hcalc, n', heqb, hwf', hne', hassocb, hcountb⟩ :=
              calc_balance_spec t3
                { d with rightNodeKey := child.nodeKey }
                l child hv hdirty hhash hwl hwc hkl hheadc
            refine ⟨n', false, t3, ?_, hwf', ?_, ?_, ?_, hcver, hclc, hcroot, hclv, hcbr, ?_, ?_⟩
            · unfold Tree.recursiveSet
              simp only [Node.nodeKey, hhash] at heqb
              simp only [hash_node, key_node, sortKey_node, subtreeHeight_node, data_node,
                leftNode_node, rightNode_node, Tree.addOrphan, Tree.mutateNode, hhash, h0,
                hc, heqc, setRight_node, withData_node, Node.nodeKey, hsw,
                Node.calcHeightAndSize, heqb, if_true, if_false, Bool.false_eq_true,
                ite_true, ite_false]
            · simp [hmemiff, hmem]
            · intro hfalse
              exact absurd hfalse (by simp)
            · rw [hassocb, hassocn, insertKV_append_right _ _ _ _ hkltail, hcassoc]
            · rw [hcws, if_neg hmem, if_neg (fun hm => hmem (hmemiff.mp hm))]
            · rw [hcountb, hccount, if_neg hmem,
                if_neg (fun hm => hmem (hmemiff.mp hm)), nodeCount_ss]
              omega

end Iavl

namespace Iavl

/-- Constructor-level unfolding of `Tree.recursiveRemove` (the automatic
equation generator fails on this match shape). -/
theorem recursiveRemove_eq (t : Tree) (d : NodeData) (lOpt rOpt : Option Node) (key : Bytes) :
    t.recursiveRemove (.node d lOpt rOpt) key =
    (if d.subtreeHeight = 0 then
      if key = d.key then
        .ok (none, none, d.value, true, t.returnNode (.node d lOpt rOpt))
      else
        .ok (some (.node d lOpt rOpt), none, none, false, t)
    else
      if bcmp key d.key = .lt then
        match lOpt with
        | none => .error "left child not resident"
        | some l =>
          match t.recursiveRemove l key with
          | .error e => .error e
          | .ok (newLeftNode, newKey, value, removed, t1) =>
            if ¬removed then
              .ok (some (.node d lOpt rOpt), none, value, false, t1)
            else
              match newLeftNode with
              | none =>
                match rOpt with
                | none => .error "right child not resident"
                | some r => .ok (some r, some d.key, value, true,
                    t1.returnNode (.node d lOpt rOpt))
              | some newL =>
                let t2 := t1.addOrphan (.node d lOpt rOpt)
                let (n1, t3) := t2.mutateNode (.node d lOpt rOpt)
                let n2 := n1.setLeft newL
                match n2.calcHeightAndSize with
                | .error e => .error e
                | .ok n3 =>
                  match t3.balance n3 with
                  | .error e => .error e
                  | .ok (n4, t4) => .ok (some n4, newKey, value, true, t4)
      else
        match rOpt with
        | none => .error "right child not resident"
        | some r =>
          match t.recursiveRemove r key with
          | .error e => .error e
          | .ok (newRightNode, newKey, value, removed, t1) =>
            if ¬removed then
              .ok (some (.node d lOpt rOpt), none, value, false, t1)
            else
              match newRightNode with
              | none =>
                match lOpt with
                | none => .error "left child not resident"
                | some l => .ok (some l, none, value, true,
                    t1.returnNode (.node d lOpt rOpt))
              | some newR =>
                let t2 := t1.addOrphan (.node d lOpt rOpt)
                let (n1, t3) := t2.mutateNode (.node d lOpt rOpt)
                let n2 := n1.setRight newR
                let n3 :=
                  match newKey with
                  | some nk => n2.withData { n2.data with key := nk }
                  | none => n2
                match n3.calcHeightAndSize with
                | .error e => .error e
                | .ok n4 =>
                  match t3.balance n4 with
                  | .error e => .error e
                  | .ok (n5, t4) => .ok (some n5, none, value, true, t4)) := by
  cases lOpt <;> cases rOpt <;> with_unfolding_all rfl

set_option maxHeartbeats 1600000

theorem returnNode_eq_of_dirty (t : Tree) (n : Node) (h : n.dirty = true) :
    t.returnNode n = { t with
      workingBytes := t.workingBytes - n.sizeBytes,
      workingSize := t.workingSize - 1,
      orphans := t.orphans ++ [⟨true, n.key, n.subtreeHeight⟩] } := by
  simp [Tree.returnNode, h]

theorem recursiveRemove_spec : ∀ (fuel : Nat) (t : Tree) (n : Node) (k : Bytes),
    nodeCount n ≤ fuel → WFv (t.version + 1) n →
    (k ∉ nodeKeys n → t.recursiveRemove n k = .ok (some n, none, none, false, t)) ∧
    (k ∈ nodeKeys n →
      ∃ nOpt jOpt t', t.recursiveRemove n k = .ok (nOpt, jOpt, none, true, t') ∧
        t'.version = t.version ∧ t'.lastCheckpoint = t.lastCheckpoint ∧
        t'.root = t.root ∧ t'.leaves = t.leaves ∧ t'.branches = t.branches ∧
        ((nOpt = none ∧ jOpt = none ∧ nodeCount n = 1 ∧
            (∃ w, leafAssoc n = [(k, w)]) ∧
            t'.workingSize = t.workingSize - 1) ∨
         (∃ m, nOpt = some m ∧ WFv (t.version + 1) m ∧
            leafAssoc m = eraseKV (leafAssoc n) k ∧
            nodeCount m + 2 = nodeCount n ∧
            t'.workingSize = t.workingSize - 2 ∧
            (jOpt = none → (nodeKeys m).head? = (nodeKeys n).head?) ∧
            (∀ j, jOpt = some j → (nodeKeys m).head? = some j)))) := by
  intro fuel
  induction fuel with
  | zero =>
    intro t n k hf hw
    have := nodeCount_pos n
    omega
  | succ fuel ih =>
    intro t n k hf hw
    obtain ⟨d, lOpt, rOpt⟩ := n
    by_cases h0 : d.subtreeHeight = 0
    · obtain ⟨hv, hdirty, rfl, rfl, hsize, hvalue, hval, hhash⟩ := (wfv_leaf h0).mp hw
      have hdirty2 : (Node.node d none none).dirty = true := hdirty
      constructor
      · intro hnm
        have hne : ¬ (k = d.key) := by
          rw [nodeKeys_leaf _ h0] at hnm
          simpa using hnm
        rw [recursiveRemove_eq, if_pos h0, if_neg hne]
      · intro hm
        have hke : k = d.key := by
          rw [nodeKeys_leaf _ h0] at hm
          simpa using hm
        subst hke
        refine ⟨none, none, t.returnNode (Node.node d none none), ?_, ?_, ?_, ?_, ?_, ?_,
          .inl ⟨rfl, rfl, ?_, ?_, ?_⟩⟩
        · rw [recursiveRemove_eq, if_pos h0, if_pos rfl, hvalue]
        · rw [returnNode_eq_of_dirty _ _ hdirty2]
        · rw [returnNode_eq_of_dirty _ _ hdirty2]
        · rw [returnNode_eq_of_dirty _ _ hdirty2]
        · rw [returnNode_eq_of_dirty _ _ hdirty2]
        · rw [returnNode_eq_of_dirty _ _ hdirty2]
        · rfl
        · exact ⟨leafPayload d, leafAssoc_leaf d h0 none none⟩
        · rw [returnNode_eq_of_dirty _ _ hdirty2]
    · obtain ⟨l, r, rfl, rfl⟩ := wfv_inner_children h0 hw
      obtain ⟨hv, hdirty, hwl, hwr, hhash, hkl, hkr, hh, hs⟩ := (wfv_inner_ss h0).mp hw
      have hdirty2 : (Node.node d (some l) (some r)).dirty = true := hdirty
      rw [nodeCount_ss] at hf
      have hfl : nodeCount l ≤ fuel := by have := nodeCount_pos r; omega
      have hfr : nodeCount r ≤ fuel := by have := nodeCount_pos l; omega
      have hkeysn : nodeKeys (Node.node d (some l) (some r)) = nodeKeys l ++ nodeKeys r :=
        nodeKeys_ss _ _ _ h0
      have hassocn : leafAssoc (Node.node d (some l) (some r)) = leafAssoc l ++ leafAssoc r :=
        leafAssoc_ss _ _ _ h0
      have hnel : nodeKeys l ≠ [] := wfv_keys_ne_nil hwl
      have hner : nodeKeys r ≠ [] := wfv_keys_ne_nil hwr
      have hheadn : (nodeKeys (Node.node d (some l) (some r))).head? = (nodeKeys l).head? := by
        rw [hkeysn, head?_append_left hnel]
      by_cases hc : bcmp k d.key = .lt
      · -- remove from the left subtree
        have hknr : k ∉ nodeKeys r := by
          intro hmr
          rcases wfv_right_keys_ge h0 hw k hmr with he | hgt
          · exact kLT_irrefl k (he ▸ hc)
          · exact kLT_asymm hc hgt
        have hmemiff : k ∈ nodeKeys (Node.node d (some l) (some r)) ↔ k ∈ nodeKeys l := by
          rw [hkeysn]; simp [hknr]
        obtain ⟨ihmiss, ihhit⟩ := ih t l k hfl hwl
        constructor
        · intro hnm
          have hmiss := ihmiss (fun hm2 => hnm (hmemiff.mpr hm2))
          rw [recursiveRemove_eq, if_neg h0, if_pos hc]
          simp only [hmiss, if_true, if_false, ite_true, ite_false, eq_self_iff_true,
            not_true, not_false_iff, Bool.false_eq_true]
        · intro hm
          obtain ⟨cOpt, jOpt, t1, heqc, hcver, hclc, hcroot, hclv, hcbr, hdisj⟩ :=
            ihhit (hmemiff.mp hm)
          have hkml : k ∈ (leafAssoc l).map Prod.fst := by
            rw [← nodeKeys_eq_map_fst]; exact hmemiff.mp hm
          rcases hdisj with ⟨rfl, rfl, hcount1, ⟨w, hassocl⟩, hws1⟩ |
            ⟨m, rfl, hwm, hmassoc, hmcount, hws1, hjnone, hjsome⟩
          · -- the left child was the removed leaf: collapse to the right subtree
            refine ⟨some r, some d.key, t1.returnNode (Node.node d (some l) (some r)),
              ?_, ?_, ?_, ?_, ?_, ?_,
              .inr ⟨r, rfl, hwr, ?_, ?_, ?_, ?_, ?_⟩⟩
            · rw [recursiveRemove_eq, if_neg h0, if_pos hc]
              simp only [heqc, if_true, if_false, ite_true, ite_false, eq_self_iff_true,
                not_true, not_false_iff, Bool.false_eq_true]
            · rw [returnNode_eq_of_dirty _ _ hdirty2]; exact hcver
            · rw [returnNode_eq_of_dirty _ _ hdirty2]; exact hclc
            · rw [returnNode_eq_of_dirty _ _ hdirty2]; exact hcroot
            · rw [returnNode_eq_of_dirty _ _ hdirty2]; exact hclv
            · rw [returnNode_eq_of_dirty _ _ hdirty2]; exact hcbr
            · rw [hassocn, hassocl]
              simp [eraseKV]
            · rw [nodeCount_ss]; omega
            · rw [returnNode_eq_of_dirty _ _ hdirty2]
              show t1.workingSize - 1 = t.workingSize - 2
              omega
            · intro hcontra
              exact absurd hcontra (by simp)
            · intro j hj
              injection hj with hj2
              subst hj2
              exact hkr
          · -- a node below the left child was removed: reattach and rebalance
            have hkm : ∀ x ∈ nodeKeys m, kLT x d.key := by
              intro x hx
              rw [nodeKeys_eq_map_fst, hmassoc, map_fst_eraseKV] at hx
              exact hkl x (by rw [nodeKeys_eq_map_fst]; exact List.mem_of_mem_erase hx)
            obtain ⟨hcalc, n', heqb, hwf', hne', hassocb, hcountb⟩ :=
              calc_balance_spec t1 { d with leftNodeKey := m.nodeKey } m r
                hv hdirty hhash hwm hwr hkm hkr
            have hkeysb : nodeKeys n' = nodeKeys m ++ nodeKeys r := by
              rw [nodeKeys_eq_map_fst, hassocb, List.map_append, ← nodeKeys_eq_map_fst,
                ← nodeKeys_eq_map_fst]
            have hnem : nodeKeys m ≠ [] := wfv_keys_ne_nil hwm
            refine ⟨some n', jOpt, t1, ?_, hcver, hclc, hcroot, hclv, hcbr,
              .inr ⟨n', rfl, hwf', ?_, ?_, hws1, ?_, ?_⟩⟩
            · rw [recursiveRemove_eq]
              simp only [Node.nodeKey, hhash] at heqb
              simp only [hash_node, key_node, subtreeHeight_node, data_node,
                leftNode_node, rightNode_node, Tree.addOrphan, Tree.mutateNode, hhash, h0,
                hc, heqc, setLeft_node, withData_node, Node.nodeKey,
                Node.calcHeightAndSize, heqb, if_true, if_false, Bool.false_eq_true,
                ite_true, ite_false, eq_self_iff_true, not_true, not_false_iff]
            · rw [hassocb, hassocn, eraseKV_append_left _ _ _ hkml, hmassoc]
            · rw [nodeCount_ss, hcountb]; omega
            · intro hj
              rw [hkeysb, head?_append_left hnem, hjnone hj, hheadn]
            · intro j hj
              rw [hkeysb, head?_append_left hnem]
              exact hjsome j hj
      · -- remove from the right subtree
        have hknl : k ∉ nodeKeys l := fun hm2 => hc (hkl k hm2)
        have hknl2 : k ∉ (leafAssoc l).map Prod.fst := by
          rw [← nodeKeys_eq_map_fst]; exact hknl
        have hmemiff : k ∈ nodeKeys (Node.node d (some l) (some r)) ↔ k ∈ nodeKeys r := by
          rw [hkeysn]; simp [hknl]
        obtain ⟨ihmiss, ihhit⟩ := ih t r k hfr hwr
        constructor
        · intro hnm
          have hmiss := ihmiss (fun hm2 => hnm (hmemiff.mpr hm2))
          rw [recursiveRemove_eq, if_neg h0, if_neg hc]
          simp only [hmiss, if_true, if_false, ite_true, ite_false, eq_self_iff_true,
            not_true, not_false_iff, Bool.false_eq_true]
        · intro hm
          obtain ⟨cOpt, jOpt, t1, heqc, hcver, hclc, hcroot, hclv, hcbr, hdisj⟩ :=
            ihhit (hmemiff.mp hm)
          rcases hdisj with ⟨rfl, rfl, hcount1, ⟨w, hassocr⟩, hws1⟩ |
            ⟨m, rfl, hwm, hmassoc, hmcount, hws1, hjnone, hjsome⟩
          · -- the right child was the removed leaf: collapse to the left subtree
            refine ⟨some l, none, t1.returnNode (Node.node d (some l) (some r)),
              ?_, ?_, ?_, ?_, ?_, ?_,
              .inr ⟨l, rfl, hwl, ?_, ?_, ?_, ?_, ?_⟩⟩
            · rw [recursiveRemove_eq, if_neg h0, if_neg hc]
              simp only [heqc, if_true, if_false, ite_true, ite_false, eq_self_iff_true,
                not_true, not_false_iff, Bool.false_eq_true]
            · rw [returnNode_eq_of_dirty _ _ hdirty2]; exact hcver
            · rw [returnNode_eq_of_dirty _ _ hdirty2]; exact hclc
            · rw [returnNode_eq_of_dirty _ _ hdirty2]; exact hcroot
            · rw [returnNode_eq_of_dirty _ _ hdirty2]; exact hclv
            · rw [returnNode_eq_of_dirty _ _ hdirty2]; exact hcbr
            · rw [hassocn, hassocr, eraseKV_append_right _ _ _ hknl2]
              simp [eraseKV]
            · rw [nodeCount_ss]; omega
            · rw [returnNode_eq_of_dirty _ _ hdirty2]
              show t1.workingSize - 1 = t.workingSize - 2
              omega
            · intro _
              rw [hheadn]
            · intro j hj
              exact absurd hj (by simp)
          · -- a node below the right child was removed: reattach, maybe take the
            -- propagated separator key, and rebalance
            have hnem : nodeKeys m ≠ [] := wfv_keys_ne_nil hwm
            cases jOpt with
            | none =>
              have hheadm : (nodeKeys m).head? = some d.key := by
                rw [hjnone rfl]; exact hkr
              obtain ⟨hcalc, n', heqb, hwf', hne', hassocb, hcountb⟩ :=
                calc_balance_spec t1 { d with rightNodeKey := m.nodeKey } l m
                  hv hdirty hhash hwl hwm hkl hheadm
              have hkeysb : nodeKeys n' = nodeKeys l ++ nodeKeys m := by
                rw [nodeKeys_eq_map_fst, hassocb, List.map_append, ← nodeKeys_eq_map_fst,
                  ← nodeKeys_eq_map_fst]
              refine ⟨some n', none, t1, ?_, hcver, hclc, hcroot, hclv, hcbr,
                .inr ⟨n', rfl, hwf', ?_, ?_, hws1, ?_, ?_⟩⟩
              · rw [recursiveRemove_eq]
                simp only [Node.nodeKey, hhash] at heqb
                simp only [hash_node, key_node, subtreeHeight_node, data_node,
                  leftNode_node, rightNode_node, Tree.addOrphan, Tree.mutateNode, hhash, h0,
                  hc, heqc, setRight_node, withData_node, Node.nodeKey,
                  Node.calcHeightAndSize, heqb, if_true, if_false, Bool.false_eq_true,
                  ite_true, ite_false, eq_self_iff_true, not_true, not_false_iff]
              · rw [hassocb, hassocn, eraseKV_append_right _ _ _ hknl2, hmassoc]
              · rw [nodeCount_ss, hcountb]; omega
              · intro _
                rw [hkeysb, head?_append_left hnel, hheadn]
              · intro j hj
                exact absurd hj (by simp)
            | some j =>
              have hjm : (nodeKeys m).head? = some j := hjsome j rfl
              have hjr : j ∈ nodeKeys r := by
                have hjmem := head?_mem hjm
                rw [nodeKeys_eq_map_fst, hmassoc, map_fst_eraseKV,
                  ← nodeKeys_eq_map_fst] at hjmem
                exact List.mem_of_mem_erase hjmem
              have hkc : ∀ x ∈ nodeKeys l, kLT x j := by
                intro x hx
                rcases wfv_right_keys_ge h0 hw j hjr with he | hgt
                · exact kLT_of_lt_of_le (hkl x hx) (.inl he.symm)
                · exact kLT_of_lt_of_le (hkl x hx) (.inr hgt)
              obtain ⟨hcalc, n', heqb, hwf', hne', hassocb, hcountb⟩ :=
                calc_balance_spec t1 { d with rightNodeKey := m.nodeKey, key := j } l m
                  hv hdirty hhash hwl hwm hkc hjm
              have hkeysb : nodeKeys n' = nodeKeys l ++ nodeKeys m := by
                rw [nodeKeys_eq_map_fst, hassocb, List.map_append, ← nodeKeys_eq_map_fst,
                  ← nodeKeys_eq_map_fst]
              refine ⟨some n', none, t1, ?_, hcver, hclc, hcroot, hclv, hcbr,
                .inr ⟨n', rfl, hwf', ?_, ?_, hws1, ?_, ?_⟩⟩
              · rw [recursiveRemove_eq]
                simp only [Node.nodeKey, hhash] at heqb
                simp only [hash_node, key_node, subtreeHeight_node, data_node,
                  leftNode_node, rightNode_node, Tree.addOrphan, Tree.mutateNode, hhash, h0,
                  hc, heqc, setRight_node, withData_node, Node.nodeKey,
                  Node.calcHeightAndSize, heqb, if_true, if_false, Bool.false_eq_true,
                  ite_true, ite_false, eq_self_iff_true, not_true, not_false_iff]
              · rw [hassocb, hassocn, eraseKV_append_right _ _ _ hknl2, hmassoc]
              · rw [nodeCount_ss, hcountb]; omega
              · intro _
                rw [hkeysb, head?_append_left hnel, hheadn]
              · intro j2 hj2
                exact absurd hj2 (by simp)

end Iavl

namespace Iavl

set_option maxHeartbeats 1600000

theorem SetOp_spec (t : Tree) (k v : Bytes) (hs : SessionInv t) :
    ∃ upd t', t.SetOp k (some v) = (.ok upd, t') ∧ SessionInv t' ∧
      (upd = true ↔ k ∈ treeKeys t) ∧
      treeAssoc t' = insertKV (treeAssoc t) k v := by
  obtain ⟨hver, hlc, hroot⟩ := hs
  cases hr : t.root with
  | none =>
    have hws : t.workingSize = 0 := by rw [hr] at hroot; exact hroot
    have hkeys : treeKeys t = [] := by unfold treeKeys; rw [hr]
    have hassoc : treeAssoc t = [] := by unfold treeAssoc; rw [hr]
    refine ⟨false,
      { (t.NewNode k v t.version).2 with root := some (t.NewNode k v t.version).1 },
      ?_, ?_, ?_, ?_⟩
    · simp only [Tree.SetOp, Tree.set, hr]
    · refine ⟨hver, hlc, ?_⟩
      show WFv 1 (t.NewNode k v t.version).1 ∧
        ((t.NewNode k v t.version).2).workingSize = (nodeCount (t.NewNode k v t.version).1 : Int)
      constructor
      · simp only [Tree.NewNode, Tree.nextNodeKey]
        rw [wfv_leaf rfl]
        refine ⟨?_, rfl, rfl, rfl, rfl, rfl, v, ?_⟩
        · show t.version + 1 = 1
          rw [hver]
          norm_num
        · show some (HashVal.leafH (t.version + 1) k v) = some (.leafH 1 k v)
          rw [hver]
          norm_num
      · show t.workingSize + 1 = (nodeCount (Node.node _ none none) : Int)
        rw [hws, nodeCount]
        rfl
    · simp [hkeys]
    · show leafAssoc (t.NewNode k v t.version).1 = insertKV (treeAssoc t) k v
      simp only [Tree.NewNode, Tree.nextNodeKey]
      rw [hassoc, leafAssoc_leaf _ rfl]
      rfl
  | some rootN =>
    have hrt : WFv 1 rootN ∧ t.workingSize = (nodeCount rootN : Int) := by
      rw [hr] at hroot; exact hroot
    have hwf1 : WFv (t.version + 1) rootN := by rw [hver]; exact hrt.1
    obtain ⟨n', upd, t1, heq, hwf', hupd, hupdh, hassoc', hver1, hlc1, hroot1, hlv1, hbr1,
      hws1, hcount1⟩ := recursiveSet_spec (nodeCount rootN) t rootN k v le_rfl hwf1
    have hkeys : treeKeys t = nodeKeys rootN := by unfold treeKeys; rw [hr]
    have hassoc : treeAssoc t = leafAssoc rootN := by unfold treeAssoc; rw [hr]
    refine ⟨upd, { t1 with root := some n' }, ?_, ?_, ?_, ?_⟩
    · simp only [Tree.SetOp, Tree.set, hr, heq]
    · refine ⟨by show t1.version = 0; rw [hver1, hver],
        by show t1.lastCheckpoint = 0; rw [hlc1, hlc], ?_⟩
      show WFv 1 n' ∧ t1.workingSize = (nodeCount n' : Int)
      constructor
      · rw [hver] at hwf'
        exact hwf'
      · rw [hws1, hcount1, hrt.2]
        push_cast
        ring
    · rw [hupd, hkeys]
    · show leafAssoc n' = insertKV (treeAssoc t) k v
      rw [hassoc', hassoc]

theorem RemoveOp_spec (t : Tree) (k : Bytes) (hs : SessionInv t) :
    ∃ rm t', t.RemoveOp k = (.ok (none, rm), t') ∧ SessionInv t' ∧
      (rm = true ↔ k ∈ treeKeys t) ∧
      treeAssoc t' = eraseKV (treeAssoc t) k := by
  obtain ⟨hver, hlc, hroot⟩ := hs
  cases hr : t.root with
  | none =>
    have hkeys : treeKeys t = [] := by unfold treeKeys; rw [hr]
    have hassoc : treeAssoc t = [] := by unfold treeAssoc; rw [hr]
    refine ⟨false, t, ?_, ⟨hver, hlc, hroot⟩, ?_, ?_⟩
    · simp only [Tree.RemoveOp, hr]
    · simp [hkeys]
    · rw [hassoc]
      rfl
  | some rootN =>
    have hrt : WFv 1 rootN ∧ t.workingSize = (nodeCount rootN : Int) := by
      rw [hr] at hroot; exact hroot
    have hwf1 : WFv (t.version + 1) rootN := by rw [hver]; exact hrt.1
    obtain ⟨ihmiss, ihhit⟩ := recursiveRemove_spec (nodeCount rootN) t rootN k le_rfl hwf1
    have hkeys : treeKeys t = nodeKeys rootN := by unfold treeKeys; rw [hr]
    have hassoc : treeAssoc t = leafAssoc rootN := by unfold treeAssoc; rw [hr]
    by_cases hm : k ∈ nodeKeys rootN
    · obtain ⟨nOpt, jOpt, t', heq, hver1, hlc1, hroot1, hlv1, hbr1, hdisj⟩ := ihhit hm
      refine ⟨true, { t' with root := nOpt }, ?_, ?_, ?_, ?_⟩
      · simp only [Tree.RemoveOp, hr, heq, not_true, Bool.false_eq_true, if_false,
          ite_false, eq_self_iff_true, not_false_iff, if_true, ite_true]
      · refine ⟨by show t'.version = 0; rw [hver1, hver],
          by show t'.lastCheckpoint = 0; rw [hlc1, hlc], ?_⟩
        rcases hdisj with ⟨rfl, rfl, hcount1, ⟨w, hassocl⟩, hws1⟩ |
          ⟨m, rfl, hwm, hmassoc, hmcount, hws1, hjn, hjs⟩
        · show t'.workingSize = 0
          rw [hws1, hrt.2, hcount1]
          ring
        · show WFv 1 m ∧ t'.workingSize = (nodeCount m : Int)
          constructor
          · rw [hver] at hwm
            exact hwm
          · rw [hws1, hrt.2]
            have h2 : (nodeCount m : Int) + 2 = (nodeCount rootN : Int) := by
              exact_mod_cast hmcount
            omega
      · simp [hkeys, hm]
      · rcases hdisj with ⟨rfl, rfl, hcount1, ⟨w, hassocl⟩, hws1⟩ |
          ⟨m, rfl, hwm, hmassoc, hmcount, hws1, hjn, hjs⟩
        · show ([] : List (Bytes × Bytes)) = eraseKV (treeAssoc t) k
          rw [hassoc, hassocl]
          simp [eraseKV]
        · show leafAssoc m = eraseKV (treeAssoc t) k
          rw [hmassoc, hassoc]
    · have hmiss := ihmiss hm
      refine ⟨false, t, ?_, ⟨hver, hlc, hroot⟩, ?_, ?_⟩
      · simp only [Tree.RemoveOp, hr, hmiss, not_false_iff, Bool.false_eq_true, if_true,
          ite_true, if_false, ite_false]
      · simp [hkeys, hm]
      · rw [hassoc, eraseKV_not_mem]
        rw [← nodeKeys_eq_map_fst]
        exact hm

theorem sessionInv_newTree : SessionInv newTree := ⟨rfl, rfl, rfl⟩

theorem applyOp_sessionInv (t : Tree) (op : Op) (hs : SessionInv t) :
    SessionInv (applyOp t op) := by
  cases op with
  | setOp k v =>
    obtain ⟨upd, t', heq, hs', h1, h2⟩ := SetOp_spec t k v hs
    show SessionInv (t.SetOp k (some v)).2
    rw [heq]
    exact hs'
  | removeOp k =>
    obtain ⟨rm, t', heq, hs', h1, h2⟩ := RemoveOp_spec t k hs
    show SessionInv (t.RemoveOp k).2
    rw [heq]
    exact hs'

theorem reachable_sessionInv (t : Tree) (h : Reachable t) : SessionInv t := by
  obtain ⟨ops, rfl⟩ := h
  have aux : ∀ (os : List Op) (t0 : Tree), SessionInv t0 →
      SessionInv (os.foldl applyOp t0) := by
    intro os
    induction os with
    | nil => intro t0 h0; exact h0
    | cons o rest ihr =>
      intro t0 h0
      exact ihr (applyOp t0 o) (applyOp_sessionInv t0 o h0)
  exact aux ops newTree sessionInv_newTree

end Iavl

namespace Iavl

set_option maxHeartbeats 1600000

theorem wfv_subnodes : ∀ {n : Node}, ∀ {v : Int}, WFv v n →
    ∀ m ∈ subNodes n, m.dirty = true ∧ m.nodeKey.version = v ∧
      (m.subtreeHeight = 0 → m.hash ≠ none) ∧
      (m.subtreeHeight ≠ 0 → m.hash = none)
  | .node d lOpt rOpt, v, h => by
    by_cases h0 : d.subtreeHeight = 0
    · obtain ⟨hv, hdirty, rfl, rfl, hsize, hvalue, hval, hhash⟩ := (wfv_leaf h0).mp h
      intro m hm
      unfold subNodes at hm
      simp at hm
      subst hm
      refine ⟨hdirty, hv, fun _ => ?_, fun hcon => absurd h0 hcon⟩
      show d.hash ≠ none
      rw [hhash]
      simp
    · obtain ⟨l, r, rfl, rfl⟩ := wfv_inner_children h0 h
      have hw := (wfv_inner_ss h0).mp h
      intro m hm
      unfold subNodes at hm
      rcases List.mem_cons.mp hm with rfl | hm2
      · exact ⟨hw.2.1, hw.1, fun hcon => absurd hcon h0, fun _ => hw.2.2.2.2.1⟩
      · rcases List.mem_append.mp hm2 with hml | hmr
        · exact wfv_subnodes hw.2.2.1 m hml
        · exact wfv_subnodes hw.2.2.2.1 m hmr

theorem buildCheckpointList_length : ∀ {n : Node} {v : Int} (lastCP : Int),
    WFv v n → lastCP < v →
    (buildCheckpointList lastCP (some n)).length = nodeCount n
  | .node d lOpt rOpt, v, lastCP, h, hlt => by
    by_cases h0 : d.subtreeHeight = 0
    · obtain ⟨hv, hdirty, rfl, rfl, hsize, hvalue, hval, hhash⟩ := (wfv_leaf h0).mp h
      unfold buildCheckpointList
      rw [if_neg (by rw [hv]; omega), if_pos h0]
      rw [nodeCount]
      rfl
    · obtain ⟨l, r, rfl, rfl⟩ := wfv_inner_children h0 h
      have hw := (wfv_inner_ss h0).mp h
      unfold buildCheckpointList
      rw [if_neg (by rw [hw.1]; omega), if_neg h0]
      rw [nodeCount_ss]
      simp only [List.length_cons, List.length_append,
        buildCheckpointList_length lastCP hw.2.2.1 hlt,
        buildCheckpointList_length lastCP hw.2.2.2.1 hlt]
      omega

theorem asyncCheckpoint_spec (t : Tree) (hs : SessionInv t) :
    ∃ s, t.asyncCheckpoint = .ok s ∧ (s.length : Int) = t.workingSize := by
  obtain ⟨hver, hlc, hroot⟩ := hs
  cases hr : t.root with
  | none =>
    have hws : t.workingSize = 0 := by rw [hr] at hroot; exact hroot
    have hb : buildCheckpointList t.lastCheckpoint t.root = [] := by
      rw [hr, buildCheckpointList]
    refine ⟨[], ?_, by rw [hws]; rfl⟩
    simp only [Tree.asyncCheckpoint, hb]
    rw [if_pos (by rw [hws]; rfl)]
  | some rootN =>
    have hrt : WFv 1 rootN ∧ t.workingSize = (nodeCount rootN : Int) := by
      rw [hr] at hroot; exact hroot
    have hlen : (buildCheckpointList t.lastCheckpoint (some rootN)).length = nodeCount rootN :=
      buildCheckpointList_length t.lastCheckpoint hrt.1 (by rw [hlc]; norm_num)
    refine ⟨buildCheckpointList t.lastCheckpoint (some rootN), ?_,
      by rw [hlen, hrt.2]⟩
    simp only [Tree.asyncCheckpoint, hr]
    rw [if_pos (by rw [hlen, hrt.2])]

theorem saveVersionKV_root_last (t : Tree) (res : Option HashVal × Int) (t' : Tree)
    (evs : List StoreEvent) (h : t.saveVersionKV = (.ok res, t', evs)) :
    ∃ pre, evs = pre ++ [.writeRoot (t.version + 1)] ∧
      ∀ e ∈ pre, (∃ nk, e = .writeLeaf nk) ∨ (∃ nk, e = .writeBranch nk) := by
  cases hr : t.root with
  | none =>
    simp [Tree.saveVersionKV, hr] at h
  | some rootN =>
    cases hd : Tree.deepHash (t.version + 1) rootN with
    | error e =>
      simp [Tree.saveVersionKV, hr, hd] at h
    | ok res5 =>
      obtain ⟨root1, lv, br, fl1, fl2⟩ := res5
      simp only [Tree.saveVersionKV, hr, hd, Prod.mk.injEq] at h
      obtain ⟨h1, h2, h3⟩ := h
      refine ⟨(if t.version + 1 = 1 then
          (sortByNk (t.branches ++ br)).map (fun n => StoreEvent.writeBranch n.nodeKey)
        else []) ++ (sortByNk (t.leaves ++ lv)).map (fun n => StoreEvent.writeLeaf n.nodeKey),
        ?_, ?_⟩
      · rw [← h3, List.append_assoc]
      · intro e he
        rcases List.mem_append.mp he with hbr2 | hlv2
        · by_cases hv1 : t.version + 1 = 1
          · rw [if_pos hv1] at hbr2
            obtain ⟨n2, _, rfl⟩ := List.mem_map.mp hbr2
            exact .inr ⟨n2.nodeKey, rfl⟩
          · rw [if_neg hv1] at hbr2
            simp at hbr2
        · obtain ⟨n2, _, rfl⟩ := List.mem_map.mp hlv2
          exact .inl ⟨n2.nodeKey, rfl⟩

theorem saveVersion_root_last (t : Tree) (res : Option HashVal × Int) (t' : Tree)
    (evs : List StoreEvent) (h : t.saveVersion true true = (.ok res, t', evs)) :
    ∃ pre, evs = pre ++ [.writeRoot (t.version + 1)] ∧
      ∀ e ∈ pre, (∃ nk, e = .writeLeaf nk) ∨ (∃ nk, e = .writeBranch nk) := by
  cases hr : t.root with
  | none =>
    simp [Tree.saveVersion, hr] at h
  | some rootN =>
    cases hd : Tree.deepHash (t.version + 1) rootN with
    | error e =>
      simp [Tree.saveVersion, hr, hd] at h
    | ok res5 =>
      obtain ⟨root1, lv, br, fl1, fl2⟩ := res5
      simp only [Tree.saveVersion, hr, hd, Bool.not_true, Bool.false_eq_true, if_false,
        ite_false, not_true, eq_self_iff_true, if_true, ite_true, Prod.mk.injEq,
        not_false_iff] at h
      obtain ⟨h1, h2, h3⟩ := h
      refine ⟨(t.leaves ++ lv).map (fun n => StoreEvent.writeLeaf n.nodeKey) ++
        (if t.version + 1 = 1 then
          (t.branches ++ br).map (fun n => StoreEvent.writeBranch n.nodeKey)
        else []), ?_, ?_⟩
      · rw [← h3, List.append_assoc]
      · intro e he
        rcases List.mem_append.mp he with hlv2 | hbr2
        · obtain ⟨n2, _, rfl⟩ := List.mem_map.mp hlv2
          exact .inl ⟨n2.nodeKey, rfl⟩
        · by_cases hv1 : t.version + 1 = 1
          · rw [if_pos hv1] at hbr2
            obtain ⟨n2, _, rfl⟩ := List.mem_map.mp hbr2
            exact .inr ⟨n2.nodeKey, rfl⟩
          · rw [if_neg hv1] at hbr2
            simp at hbr2

theorem poolInv_grow (np : NodePool) (a : Nat) (h : PoolInv np) : PoolInv (np.grow a) := by
  intro pid hpid
  simp only [NodePool.grow] at hpid ⊢
  rcases List.mem_append.mp hpid with hold | hnew
  · obtain ⟨slot, hget, hh, hp⟩ := h pid hold
    refine ⟨slot, ?_, hh, hp⟩
    rw [List.getElem?_append_left, hget]
    exact (List.getElem?_eq_some.mp hget).1
  · obtain ⟨i, hi, rfl⟩ := List.mem_map.mp hnew
    have hi2 : i < a := List.mem_range.mp hi
    refine ⟨Node.node
      { nodeKey := emptyNodeKey, key := [], sortKey := [], value := none,
        subtreeHeight := 0, size := 0, hash := none, dirty := false,
        leftNodeKey := emptyNodeKey, rightNodeKey := emptyNodeKey,
        poolId := np.nodes.length + i } none none, ?_, rfl, rfl⟩
    rw [List.getElem?_append_right (by omega)]
    have hsub : np.nodes.length + i - np.nodes.length = i := by omega
    rw [hsub, List.getElem?_map, List.getElem?_range hi2]
    rfl

theorem poolInv_put (np : NodePool) (n : Node) (h : PoolInv np)
    (h2 : n.poolId < np.nodes.length) : PoolInv (np.Put n) := by
  intro pid hpid
  simp only [NodePool.Put] at hpid ⊢
  rcases List.mem_append.mp hpid with hold | hnew
  · by_cases he : pid = n.poolId
    · subst he
      exact ⟨NodePool.resetNode n, List.getElem?_set_self h2, rfl, rfl⟩
    · obtain ⟨slot, hget, hh, hp⟩ := h pid hold
      refine ⟨slot, ?_, hh, hp⟩
      rw [List.getElem?_set_ne (fun hc => he hc.symm), hget]
  · have he : pid = n.poolId := by simpa using hnew
    subst he
    exact ⟨NodePool.resetNode n, List.getElem?_set_self h2, rfl, rfl⟩

theorem get_hash_none (np : NodePool) (m : Node) (np2 : NodePool) (h : PoolInv np)
    (heq : np.Get = .ok (m, np2)) : m.hash = none := by
  simp only [NodePool.Get] at heq
  by_cases hf : np.free.length = 0
  · rw [if_pos hf] at heq
    have hinv := poolInv_grow np np.nodes.length h
    cases hfree : (np.grow np.nodes.length).free with
    | nil =>
      rw [hfree] at heq
      simp at heq
    | cons pid rest =>
      rw [hfree] at heq
      obtain ⟨slot, hget, hh, hp⟩ := hinv pid (by rw [hfree]; exact List.mem_cons_self _ _)
      simp only [hget, hh, Option.isSome_none, Bool.false_eq_true, if_false,
        ite_false] at heq
      injection heq with hpair
      injection hpair with h1 h2
      rw [← h1]
      exact hh
  · rw [if_neg hf] at heq
    cases hfree : np.free with
    | nil =>
      rw [hfree] at hf
      simp at hf
    | cons pid rest =>
      rw [hfree] at heq
      obtain ⟨slot, hget, hh, hp⟩ := h pid (by rw [hfree]; exact List.mem_cons_self _ _)
      simp only [hget, hh, Option.isSome_none, Bool.false_eq_true, if_false,
        ite_false] at heq
      injection heq with hpair
      injection hpair with h1 h2
      rw [← h1]
      exact hh

end Iavl

namespace Iavl

set_option maxHeartbeats 1600000

/-! ### The claims -/

/-- Claim C1 (corrected): a failed backend write during `SaveVersion` does
return an error, but the in-memory tree is NOT left at the previous
committed version: the version counter has already been bumped to
`version + 1` and the sequence counter reset before any write is attempted,
and no rollback happens on the error paths. -/
theorem C1_theorem (t : Tree) (rootOk : Bool) :
    (∃ e, (t.saveVersion false rootOk).1 = .error e) ∧
    ((t.saveVersion false rootOk).2.1).version = t.version + 1 ∧
    ((t.saveVersion false rootOk).2.1).sequenceCtr = 0 := by
  cases hr : t.root with
  | none =>
    simp only [Tree.saveVersion, hr]
    exact ⟨⟨_, rfl⟩, by trivial, by trivial⟩
  | some rootN =>
    cases hd : Tree.deepHash (t.version + 1) rootN with
    | error e =>
      simp only [Tree.saveVersion, hr, hd]
      exact ⟨⟨e, rfl⟩, by trivial, by trivial⟩
    | ok res5 =>
      obtain ⟨root1, lv, br, fl1, fl2⟩ := res5
      simp only [Tree.saveVersion, hr, hd, Bool.false_eq_true, not_false_iff,
        if_true, ite_true]
      exact ⟨⟨_, rfl⟩, by trivial, by trivial⟩

/-- Claim C1, refuting instance: committing version 1 and then failing the
leaf batch of the next save leaves the tree at version 2, not at the
committed version 1. -/
theorem C1_counterexample :
    (exC1.saveVersion false true).1 = .error "batch set leaves: backend error" ∧
    ((exC1.saveVersion false true).2.1).version = 2 ∧ exC1.version = 1 :=
  ⟨rfl, rfl, rfl⟩

/-- Claim C2 (corrected): `Remove` of a present key returns `removed = true`
but ALWAYS a nil value (leaf values are cleared when the leaf is hashed, and
`recursiveRemove` hands back the in-memory `value` field); a missing key
returns `(nil, false)` with the mapping unchanged.  The stored mapping drops
the key either way. -/
theorem C2_theorem (t : Tree) (k : Bytes) (h : Reachable t) :
    ∃ rm t', t.RemoveOp k = (.ok (none, rm), t') ∧
      (rm = true ↔ k ∈ treeKeys t) ∧
      treeAssoc t' = eraseKV (treeAssoc t) k := by
  obtain ⟨rm, t', heq, hs', hiff, hassoc⟩ := RemoveOp_spec t k (reachable_sessionInv t h)
  exact ⟨rm, t', heq, hiff, hassoc⟩

/-- Claim C2, witness: removing the present key `[97]` from the one-key
session tree. -/
theorem C2_witness :
    ∃ rm t', exT1.RemoveOp [97] = (.ok (none, rm), t') ∧
      (rm = true ↔ [97] ∈ treeKeys exT1) ∧
      treeAssoc t' = eraseKV (treeAssoc exT1) [97] :=
  C2_theorem exT1 [97] ⟨exOps1, rfl⟩

/-- Claim C2, refuting instance: the tree stores `[97] ↦ [49]`, yet `Remove`
returns a nil value rather than `[49]`. -/
theorem C2_counterexample :
    (exT1.RemoveOp [97]).1 = .ok (none, true) ∧
    lookupA (treeAssoc exT1) [97] = some [49] :=
  ⟨rfl, rfl⟩

/-- Claim C3 (corrected): in every reachable working tree all in-memory
nodes are dirty and stamped with the working version, and branches carry no
hash — but working LEAVES are hashed eagerly at creation, so `hash = None ⇔
dirty = True` fails for them: a dirty working leaf always carries a hash. -/
theorem C3_theorem (t : Tree) (h : Reachable t) :
    ∀ n ∈ treeNodes t, n.dirty = true ∧ n.nodeKey.version = 1 ∧
      (n.subtreeHeight = 0 → n.hash ≠ none) ∧
      (n.subtreeHeight ≠ 0 → n.hash = none) := by
  obtain ⟨hver, hlc, hroot⟩ := reachable_sessionInv t h
  intro n hn
  unfold treeNodes at hn
  cases hr : t.root with
  | none =>
    rw [hr] at hn
    simp at hn
  | some rootN =>
    rw [hr] at hn
    have hrt : WFv 1 rootN ∧ t.workingSize = (nodeCount rootN : Int) := by
      rw [hr] at hroot; exact hroot
    exact wfv_subnodes hrt.1 n hn

/-- Claim C3, witness: the two-key session tree. -/
theorem C3_witness :
    (treeNodes exT2).Forall (fun n => n.dirty = true ∧ n.nodeKey.version = 1 ∧
      (n.subtreeHeight = 0 → n.hash ≠ none) ∧
      (n.subtreeHeight ≠ 0 → n.hash = none)) :=
  List.forall_iff_forall_mem.mpr (C3_theorem exT2 ⟨exOps2, rfl⟩)

/-- Claim C3, refuting instance: a freshly created working leaf is dirty AND
carries a hash, so `hash = None ⇔ dirty = True` does not hold. -/
theorem C3_counterexample :
    (newTree.NewNode [97] [49] newTree.version).1.dirty = true ∧
    (newTree.NewNode [97] [49] newTree.version).1.hash ≠ none :=
  ⟨rfl, by decide⟩

/-- Claim C4 (corrected): on a successful save the version's root record is
the last store write — every node record precedes it — but it is NOT true
that all dirty nodes are written first: branch records are only written when
the committed version is 1, so dirty branches of later versions are never
persisted ahead of the root record (see the refuting instance). -/
theorem C4_theorem (t : Tree) (res1 res2 : Option HashVal × Int) (u1 u2 : Tree)
    (evs1 evs2 : List StoreEvent)
    (h1 : t.saveVersionKV = (.ok res1, u1, evs1))
    (h2 : t.saveVersion true true = (.ok res2, u2, evs2)) :
    (∃ pre, evs1 = pre ++ [.writeRoot (t.version + 1)] ∧
      ∀ e ∈ pre, (∃ nk, e = .writeLeaf nk) ∨ (∃ nk, e = .writeBranch nk)) ∧
    (∃ pre, evs2 = pre ++ [.writeRoot (t.version + 1)] ∧
      ∀ e ∈ pre, (∃ nk, e = .writeLeaf nk) ∨ (∃ nk, e = .writeBranch nk)) :=
  ⟨saveVersionKV_root_last t res1 u1 evs1 h1,
   saveVersion_root_last t res2 u2 evs2 h2⟩

/-- Claim C4, witness: committing the one-key session through both store
paths. -/
theorem C4_witness :
    (∃ pre, (exT1.saveVersionKV).2.2 = pre ++ [.writeRoot (exT1.version + 1)] ∧
      ∀ e ∈ pre, (∃ nk, e = .writeLeaf nk) ∨ (∃ nk, e = .writeBranch nk)) ∧
    (∃ pre, (exT1.saveVersion true true).2.2 = pre ++ [.writeRoot (exT1.version + 1)] ∧
      ∀ e ∈ pre, (∃ nk, e = .writeLeaf nk) ∨ (∃ nk, e = .writeBranch nk)) :=
  C4_theorem exT1 (some (.leafH 1 [97] [49]), 1) (some (.leafH 1 [97] [49]), 1)
    ((exT1.saveVersionKV).2.1) ((exT1.saveVersion true true).2.1)
    ((exT1.saveVersionKV).2.2) ((exT1.saveVersion true true).2.2) rfl rfl

/-- Claim C4, refuting instance: saving version 2 writes the leaf record and
the root record only — the dirty version-2 root branch gets no node record
before the root pointer is written. -/
theorem C4_counterexample :
    exC2.root.map Node.isLeaf = some false ∧
    exC2.root.map Node.dirty = some true ∧
    (exC2.saveVersionKV).2.2 = [.writeLeaf ⟨2, 2⟩, .writeRoot 2] :=
  ⟨rfl, rfl, rfl⟩

/-- Claim C5 (corrected): when one side of an inner node was the removed
leaf the surviving sibling does replace the node, but the separator key
propagates upward on a LEFT-side removal (the right sibling's smallest key,
which is the parent's separator); a RIGHT-side removal propagates no key —
the opposite of the spec's sentence. -/
theorem C5_theorem (t : Tree) (d : NodeData) (l r : Node) (k : Bytes)
    (hw : WFv (t.version + 1) (.node d (some l) (some r)))
    (h0 : d.subtreeHeight ≠ 0) :
    (nodeKeys l = [k] →
      ∃ t', t.recursiveRemove (.node d (some l) (some r)) k =
        .ok (some r, some d.key, none, true, t')) ∧
    (nodeKeys r = [k] →
      ∃ t', t.recursiveRemove (.node d (some l) (some r)) k =
        .ok (some l, none, none, true, t')) := by
  obtain ⟨hv, hdirty, hwl, hwr, hhash, hkl, hkr, hh, hs⟩ := (wfv_inner_ss h0).mp hw
  constructor
  · intro hkeysl
    have hc : bcmp k d.key = .lt :=
      hkl k (by rw [hkeysl]; exact List.mem_singleton_self k)
    obtain ⟨dl, lo, ro⟩ := l
    have hl0 : dl.subtreeHeight = 0 := by
      by_contra hl0
      obtain ⟨ll, lr, rfl, rfl⟩ := wfv_inner_children hl0 hwl
      have h2 := (wfv_inner_ss hl0).mp hwl
      rw [nodeKeys_ss _ _ _ hl0] at hkeysl
      have hp1 : 0 < (nodeKeys ll).length :=
        List.length_pos.mpr (wfv_keys_ne_nil h2.2.2.1)
      have hp2 : 0 < (nodeKeys lr).length :=
        List.length_pos.mpr (wfv_keys_ne_nil h2.2.2.2.1)
      have e1 := congrArg List.length hkeysl
      rw [List.length_append] at e1
      simp only [List.length_singleton] at e1
      omega
    obtain ⟨hv2, hdirty2, rfl, rfl, hsize2, hvalue2, hval2, hhash2⟩ :=
      (wfv_leaf hl0).mp hwl
    have hdk : dl.key = k := by
      rw [nodeKeys_leaf _ hl0] at hkeysl
      simpa using hkeysl
    have hrec : t.recursiveRemove (Node.node dl none none) k =
        .ok (none, none, none, true, t.returnNode (Node.node dl none none)) := by
      rw [recursiveRemove_eq, if_pos hl0, if_pos hdk.symm, hvalue2]
    refine ⟨(t.returnNode (Node.node dl none none)).returnNode
        (Node.node d (some (Node.node dl none none)) (some r)), ?_⟩
    rw [recursiveRemove_eq, if_neg h0, if_pos hc]
    simp only [hrec, if_true, if_false, ite_true, ite_false, eq_self_iff_true,
      not_true, not_false_iff, Bool.false_eq_true]
  · intro hkeysr
    have hdkey : k = d.key := by
      rw [hkeysr] at hkr
      simpa using hkr
    have hc : ¬(bcmp k d.key = .lt) := by
      rw [← hdkey, bcmp_refl]
      simp
    obtain ⟨dr, ro1, ro2⟩ := r
    have hr0 : dr.subtreeHeight = 0 := by
      by_contra hr0
      obtain ⟨rl, rr, rfl, rfl⟩ := wfv_inner_children hr0 hwr
      have h2 := (wfv_inner_ss hr0).mp hwr
      rw [nodeKeys_ss _ _ _ hr0] at hkeysr
      have hp1 : 0 < (nodeKeys rl).length :=
        List.length_pos.mpr (wfv_keys_ne_nil h2.2.2.1)
      have hp2 : 0 < (nodeKeys rr).length :=
        List.length_pos.mpr (wfv_keys_ne_nil h2.2.2.2.1)
      have e1 := congrArg List.length hkeysr
      rw [List.length_append] at e1
      simp only [List.length_singleton] at e1
      omega
    obtain ⟨hv2, hdirty2, rfl, rfl, hsize2, hvalue2, hval2, hhash2⟩ :=
      (wfv_leaf hr0).mp hwr
    have hdk : dr.key = k := by
      rw [nodeKeys_leaf _ hr0] at hkeysr
      simpa using hkeysr
    have hrec : t.recursiveRemove (Node.node dr none none) k =
        .ok (none, none, none, true, t.returnNode (Node.node dr none none)) := by
      rw [recursiveRemove_eq, if_pos hr0, if_pos hdk.symm, hvalue2]
    refine ⟨(t.returnNode (Node.node dr none none)).returnNode
        (Node.node d (some l) (some (Node.node dr none none))), ?_⟩
    rw [recursiveRemove_eq, if_neg h0, if_neg hc]
    simp only [hrec, if_true, if_false, ite_true, ite_false, eq_self_iff_true,
      not_true, not_false_iff, Bool.false_eq_true]

/-- The concrete two-leaf subtree of `c5data` is a well-formed working
subtree of version 1. -/
theorem c5_wf : WFv 1 (Node.node c5data (some c5leafA) (some c5leafB)) := by
  rw [wfv_inner_ss (by decide)]
  refine ⟨rfl, rfl, ?_, ?_, rfl, by decide, by decide, by decide, by decide⟩
  · simp only [c5leafA]
    rw [wfv_leaf rfl]
    exact ⟨rfl, rfl, rfl, rfl, rfl, rfl, [49], rfl⟩
  · simp only [c5leafB]
    rw [wfv_leaf rfl]
    exact ⟨rfl, rfl, rfl, rfl, rfl, rfl, [50], rfl⟩

/-- Claim C5, witness: removing the left leaf `[97]` under the separator
`[98]` collapses to the right sibling and propagates the separator key. -/
theorem C5_witness :
    WFv (newTree.version + 1) (Node.node c5data (some c5leafA) (some c5leafB)) ∧
    ((nodeKeys c5leafA = [[97]] →
      ∃ t', newTree.recursiveRemove
          (Node.node c5data (some c5leafA) (some c5leafB)) [97] =
        .ok (some c5leafB, some c5data.key, none, true, t')) ∧
     (nodeKeys c5leafB = [[97]] →
      ∃ t', newTree.recursiveRemove
          (Node.node c5data (some c5leafA) (some c5leafB)) [97] =
        .ok (some c5leafA, none, none, true, t'))) :=
  ⟨c5_wf, C5_theorem newTree c5data c5leafA c5leafB [97] c5_wf (by decide)⟩

/-- Claim C5, refuting instance: in the two-key session removing the LEFT
key `[97]` propagates the separator `[98]` upward, while removing the RIGHT
key `[98]` propagates nothing — the spec says the right side propagates. -/
theorem C5_counterexample :
    exT2.root.map (fun n => (exT2.recursiveRemove n [97]).map (fun x => x.2.1)) =
      some (.ok (some [98])) ∧
    exT2.root.map (fun n => (exT2.recursiveRemove n [98]).map (fun x => x.2.1)) =
      some (.ok none) :=
  ⟨rfl, rfl⟩

/-- Claim C6 (code bug): the public `Size` and `Height` dereference
`tree.root` with no nil check, so on a freshly created (or fully emptied)
tree — plain user input — the Go code panics with a nil pointer
dereference, contradicting the policy that the core never panics on user
input. -/
theorem C6_theorem :
    Tree.Size newTree = .error "nil pointer dereference" ∧
    Tree.Height newTree = .error "nil pointer dereference" :=
  ⟨rfl, rfl⟩

/-- Claim C7 (confirmed): `Set` with a non-nil value succeeds, reports
`updated = true` exactly for an existing key, and afterwards the tree maps
the key to the new value. -/
theorem C7_theorem (t : Tree) (k v : Bytes) (h : Reachable t) :
    ∃ upd t', t.SetOp k (some v) = (.ok upd, t') ∧
      (upd = true ↔ k ∈ treeKeys t) ∧
      lookupA (treeAssoc t') k = some v := by
  obtain ⟨upd, t', heq, hs', hupd, hassoc⟩ := SetOp_spec t k v (reachable_sessionInv t h)
  exact ⟨upd, t', heq, hupd, by rw [hassoc]; exact lookupA_insertKV _ k v⟩

/-- Claim C7, witness: inserting a fresh key into the one-key session. -/
theorem C7_witness :
    ∃ upd t', exT1.SetOp [98] (some [50]) = (.ok upd, t') ∧
      (upd = true ↔ [98] ∈ treeKeys exT1) ∧
      lookupA (treeAssoc t') [98] = some [50] :=
  C7_theorem exT1 [98] [50] ⟨exOps1, rfl⟩

/-- Claim C8 (confirmed): `Set` with a nil value returns the invalid-input
error before touching anything, and the whole tree state is returned
unchanged. -/
theorem C8_theorem (t : Tree) (k : Bytes) :
    t.SetOp k none = (.error "attempt to store nil value at key", t) :=
  rfl

/-- Claim C9 (corrected): `Put` resets the slot's fields EXCEPT `sortKey`
and `poolId` (the source's `resetNode` never touches `sortKey`, so "resets
all fields" is false), returns the id to the free list, and preserves the
pool invariant; every node `Get` hands out under the invariant has a nil
hash, so the assertion never fires for slots that went through `Put`. -/
theorem C9_theorem (np : NodePool) (n : Node) (h : PoolInv np)
    (h2 : n.poolId < np.nodes.length) :
    PoolInv (np.Put n) ∧
    (np.Put n).nodes[n.poolId]? = some (NodePool.resetNode n) ∧
    (NodePool.resetNode n).hash = none ∧
    (∀ m np2, (np.Put n).Get = .ok (m, np2) → m.hash = none) := by
  refine ⟨poolInv_put np n h h2, ?_, rfl, ?_⟩
  · show (np.nodes.set n.poolId (NodePool.resetNode n))[n.poolId]? = _
    exact List.getElem?_set_self h2
  · intro m np2 heq
    exact get_hash_none (np.Put n) m np2 (poolInv_put np n h h2) heq

/-- Claim C9, witness: putting the dirty hashed slot back into the one-slot
pool. -/
theorem C9_witness :
    PoolInv cexPool ∧ cexPoolNode.poolId < cexPool.nodes.length ∧
    (PoolInv (cexPool.Put cexPoolNode) ∧
     (cexPool.Put cexPoolNode).nodes[cexPoolNode.poolId]? =
       some (NodePool.resetNode cexPoolNode) ∧
     (NodePool.resetNode cexPoolNode).hash = none ∧
     (∀ m np2, (cexPool.Put cexPoolNode).Get = .ok (m, np2) → m.hash = none)) :=
  ⟨fun pid hpid => absurd hpid (List.not_mem_nil pid),
   by decide,
   C9_theorem cexPool cexPoolNode
     (fun pid hpid => absurd hpid (List.not_mem_nil pid)) (by decide)⟩

/-- Claim C9, refuting instance: after `Put` the slot still carries the old
non-empty `sortKey`, so not all fields were reset. -/
theorem C9_counterexample :
    (cexPool.Put cexPoolNode).nodes[0]?.map Node.sortKey = some [1] ∧
    cexPoolNode.sortKey = [1] ∧ ([1] : Bytes) ≠ [] :=
  ⟨rfl, rfl, by decide⟩

/-- Claim C10 (confirmed): in every reachable working tree `workingSize`
equals the number of in-memory nodes (all of which are dirty), and the
checkpoint builder collects exactly `workingSize` nodes, so
`asyncCheckpoint` succeeds with a batch of that length. -/
theorem C10_theorem (t : Tree) (h : Reachable t) :
    t.workingSize = countT t ∧ (∀ n ∈ treeNodes t, n.dirty = true) ∧
    ∃ s, t.asyncCheckpoint = .ok s ∧ (s.length : Int) = t.workingSize := by
  have hs := reachable_sessionInv t h
  refine ⟨?_, ?_, asyncCheckpoint_spec t hs⟩
  · obtain ⟨hver, hlc, hroot⟩ := hs
    unfold countT
    cases hr : t.root with
    | none =>
      rw [hr] at hroot
      exact hroot
    | some rootN =>
      have hrt : WFv 1 rootN ∧ t.workingSize = (nodeCount rootN : Int) := by
        rw [hr] at hroot; exact hroot
      exact hrt.2
  · obtain ⟨hver, hlc, hroot⟩ := hs
    intro n hn
    unfold treeNodes at hn
    cases hr : t.root with
    | none =>
      rw [hr] at hn
      simp at hn
    | some rootN =>
      rw [hr] at hn
      have hrt : WFv 1 rootN ∧ t.workingSize = (nodeCount rootN : Int) := by
        rw [hr] at hroot; exact hroot
      exact (wfv_subnodes hrt.1 n hn).1

/-- Claim C10, witness: the two-key session tree (three nodes, workingSize
3, checkpoint batch of 3). -/
theorem C10_witness :
    exT2.workingSize = countT exT2 ∧ (∀ n ∈ treeNodes exT2, n.dirty = true) ∧
    ∃ s, exT2.asyncCheckpoint = .ok s ∧ (s.length : Int) = exT2.workingSize :=
  C10_theorem exT2 ⟨exOps2, rfl⟩

end Iavl
